import Mathlib

/-!
Verification of the opendependency/odep module storage and graph core.

The Go source is shallowly embedded: pure functions become Lean functions,
the mutable adjacency matrix, in-memory repository and on-disk file tree
become explicit state values threaded through the operations, Go errors
become `Option String` / `Except String`, and the two traversal loops become
fuel-indexed recursive functions (the fuel models the number of loop
iterations; a `none` result means the fuel ran out before the loop exited).
-/

set_option synthInstance.maxSize 2000

namespace Odep

/-! ## Module record (data model)

Modelled from the spec: the module record value type lives in the external
`go-spec` package (`spec.Module` and friends); only its `Validate` methods are
part of this repository's sources.  The field structure below follows spec
section 3 and the fields accessed by the sources: identity strings, a nested
version block behind a nullable pointer (`Option`), annotations, and an
ordered dependency list whose entries carry an optional direction. -/

inductive DependencyDirection where
  | UPSTREAM
  | DOWNSTREAM
deriving DecidableEq

structure ModuleDependency where
  Namespace : String
  Name : String
  Type_ : String
  Version : String
  Direction : Option DependencyDirection
deriving DecidableEq

structure ModuleVersion where
  Name : String
  Schema : Option String
  Replaces : List String
deriving DecidableEq

structure Module where
  Namespace : String
  Name : String
  Type_ : String
  Version : Option ModuleVersion
  Annotations : List (String × String)
  Dependencies : List ModuleDependency
deriving DecidableEq

/-! ## Validation (go-spec `validate.go`, included in the sources)

Errors are modelled as `Option String`: `none` is Go's `nil` error, `some msg`
an error with message `msg`.  Go's `len` on a string counts bytes, hence
`String.utf8ByteSize`.  Go indexes `value[0]` / `value[len-1]` take bytes; for
the ASCII range checks performed here this agrees with testing the first/last
character (every byte of a multi-byte UTF-8 character is `≥ 0x80` and fails
the range checks, as does the character itself). -/

def mustFulfilConstraints : List (Unit → Option String) → Option String
  | [] => none
  | c :: rest =>
    match c () with
    | some e => some e
    | none => mustFulfilConstraints rest

def mustHaveMinMaxLength (value : String) (minLen maxLen : Int) : Option String :=
  if minLen < 0 then
    some "min length must be greater or equal 0"
  else if maxLen < 0 then
    some "max length must be greater or equal 0"
  else if minLen > maxLen then
    some "min length must be less or equal max length"
  else
    let l : Int := value.utf8ByteSize
    if l < minLen then
      some ("must have at least " ++ toString minLen ++ " characters")
    else if l > maxLen then
      some ("must have at most " ++ toString maxLen ++ " characters")
    else
      none

/-- the character class of the Go regexp `^[a-z0-9-.]+$` -/
def isLowerAlnumDashDotChar (c : Char) : Bool :=
  (decide ('a' ≤ c) && decide (c ≤ 'z')) || (decide ('0' ≤ c) && decide (c ≤ '9')) || c == '-' || c == '.'

/-- Go `isLowercaseAlphanumericDashDot`: whole-string match of `^[a-z0-9-.]+$`
(on a nonempty string this is: every character lies in the class). -/
def isLowercaseAlphanumericDashDot (value : String) : Bool :=
  !value.data.isEmpty && value.data.all isLowerAlnumDashDotChar

def mustBeLowercaseAlphanumericDashDot (value : String) : Option String :=
  if value.utf8ByteSize = 0 then
    none
  else if !isLowercaseAlphanumericDashDot value then
    some "must contain only lowercase alphanumeric characters, '-' or '.'"
  else
    none

def mustStartWithLowercaseAlphabeticCharacter (value : String) : Option String :=
  if value.utf8ByteSize < 1 then
    none
  else
    match value.data.head? with
    | some firstCharacter =>
      if decide ('a' ≤ firstCharacter) && decide (firstCharacter ≤ 'z') then
        none
      else
        some "must start with lowercase alphabetic character"
    | none => none

def mustStartWithLowercaseAlphanumericCharacter (value : String) : Option String :=
  if value.utf8ByteSize = 0 then
    none
  else
    match value.data.head? with
    | some firstCharacter =>
      if (decide ('a' ≤ firstCharacter) && decide (firstCharacter ≤ 'z'))
          || (decide ('0' ≤ firstCharacter) && decide (firstCharacter ≤ '9')) then
        none
      else
        some "must start with lowercase alphanumeric character"
    | none => none

def mustEndWithLowercaseAlphanumericCharacter (value : String) : Option String :=
  if value.utf8ByteSize < 1 then
    none
  else
    match value.data.getLast? with
    | some lastCharacter =>
      if (decide ('a' ≤ lastCharacter) && decide (lastCharacter ≤ 'z'))
          || (decide ('0' ≤ lastCharacter) && decide (lastCharacter ≤ '9')) then
        none
      else
        some "must end with lowercase alphanumeric character"
    | none => none

def validateModuleNamespace (ns : String) : Option String :=
  mustFulfilConstraints
    [ fun _ => mustHaveMinMaxLength ns 1 63
    , fun _ => mustBeLowercaseAlphanumericDashDot ns
    , fun _ => mustStartWithLowercaseAlphabeticCharacter ns
    , fun _ => mustEndWithLowercaseAlphanumericCharacter ns ]

def validateModuleName (name : String) : Option String :=
  mustFulfilConstraints
    [ fun _ => mustHaveMinMaxLength name 1 63
    , fun _ => mustBeLowercaseAlphanumericDashDot name
    , fun _ => mustStartWithLowercaseAlphabeticCharacter name
    , fun _ => mustEndWithLowercaseAlphanumericCharacter name ]

def validateModuleType (type_ : String) : Option String :=
  mustFulfilConstraints
    [ fun _ => mustHaveMinMaxLength type_ 1 63
    , fun _ => mustBeLowercaseAlphanumericDashDot type_
    , fun _ => mustStartWithLowercaseAlphabeticCharacter type_
    , fun _ => mustEndWithLowercaseAlphanumericCharacter type_ ]

def validateModuleVersionName (name : String) : Option String :=
  mustFulfilConstraints
    [ fun _ => mustHaveMinMaxLength name 1 63
    , fun _ => mustBeLowercaseAlphanumericDashDot name
    , fun _ => mustStartWithLowercaseAlphanumericCharacter name
    , fun _ => mustEndWithLowercaseAlphanumericCharacter name ]

def validateModuleVersionSchema (schema : String) : Option String :=
  mustFulfilConstraints
    [ fun _ => mustHaveMinMaxLength schema 1 63
    , fun _ => mustBeLowercaseAlphanumericDashDot schema
    , fun _ => mustStartWithLowercaseAlphabeticCharacter schema
    , fun _ => mustEndWithLowercaseAlphanumericCharacter schema ]

def validateReplaces (startIdx : Nat) : List String → Option String
  | [] => none
  | v :: rest =>
    match validateModuleVersionName v with
    | some e => some ("replaces: index " ++ toString startIdx ++ ": " ++ e)
    | none => validateReplaces (startIdx + 1) rest

def ModuleVersion.Validate (x : ModuleVersion) : Option String :=
  match validateModuleVersionName x.Name with
  | some e => some ("name: " ++ e)
  | none =>
    match x.Schema with
    | some schema =>
      match validateModuleVersionSchema schema with
      | some e => some ("schema: " ++ e)
      | none => validateReplaces 0 x.Replaces
    | none => validateReplaces 0 x.Replaces

def validateModuleVersion (moduleVersion : Option ModuleVersion) : Option String :=
  match moduleVersion with
  | none => some "must be set"
  | some v => v.Validate

def validateModuleAnnotationKey (key : String) : Option String :=
  mustFulfilConstraints
    [ fun _ => mustHaveMinMaxLength key 1 63
    , fun _ => mustBeLowercaseAlphanumericDashDot key
    , fun _ => mustStartWithLowercaseAlphabeticCharacter key
    , fun _ => mustEndWithLowercaseAlphanumericCharacter key ]

def validateModuleAnnotationValue (value : String) : Option String :=
  mustFulfilConstraints
    [ fun _ => mustHaveMinMaxLength value 0 253 ]

/-- Go iterates the annotation map in unspecified order; the association-list
model checks entries in list order.  Whether the overall result is `nil` does
not depend on that order. -/
def validateModuleAnnotations : List (String × String) → Option String
  | [] => none
  | (k, v) :: rest =>
    match validateModuleAnnotationKey k with
    | some e => some ("key \"" ++ k ++ "\": " ++ e)
    | none =>
      match validateModuleAnnotationValue v with
      | some e => some ("value of key \"" ++ k ++ "\": " ++ e)
      | none => validateModuleAnnotations rest

def ModuleDependency.Validate (x : ModuleDependency) : Option String :=
  match validateModuleNamespace x.Namespace with
  | some e => some ("namespace: " ++ e)
  | none =>
    match validateModuleName x.Name with
    | some e => some ("name: " ++ e)
    | none =>
      match validateModuleType x.Type_ with
      | some e => some ("type: " ++ e)
      | none =>
        match validateModuleVersionName x.Version with
        | some e => some ("version: " ++ e)
        | none => none

def validateModuleDependenciesFrom (startIdx : Nat) : List ModuleDependency → Option String
  | [] => none
  | d :: rest =>
    match d.Validate with
    | some e => some ("index " ++ toString startIdx ++ ": " ++ e)
    | none => validateModuleDependenciesFrom (startIdx + 1) rest

def validateModuleDependencies (moduleDependencies : List ModuleDependency) : Option String :=
  validateModuleDependenciesFrom 0 moduleDependencies

def Module.Validate (x : Module) : Option String :=
  match validateModuleNamespace x.Namespace with
  | some e => some ("namespace: " ++ e)
  | none =>
    match validateModuleName x.Name with
    | some e => some ("name: " ++ e)
    | none =>
      match validateModuleType x.Type_ with
      | some e => some ("type: " ++ e)
      | none =>
        match validateModuleVersion x.Version with
        | some e => some ("version: " ++ e)
        | none =>
          match validateModuleAnnotations x.Annotations with
          | some e => some ("annotations: " ++ e)
          | none =>
            match validateModuleDependencies x.Dependencies with
            | some e => some ("dependencies: " ++ e)
            | none => none

/-! ## Vertex and the in-memory adjacency matrix (`graph.go`,
`inmemory_adjacentmatrix.go`)

Go's `map` types become association lists with unique keys; `lookupA` and
`upsert` model map read and map write.  Map iteration order is never observed
by the embedded code (`NumberOfEdges` only takes `len`), so the list order is
irrelevant.  A nil Go slice and an empty slice are both `[]`. -/

structure Vertex where
  Namespace : String
  Name : String
  Type_ : String
  Version : String
deriving DecidableEq

def emptyVertex : Vertex := ⟨"", "", "", ""⟩

def lookupA {κ β : Type} [DecidableEq κ] (k : κ) : List (κ × β) → Option β
  | [] => none
  | (k', v) :: rest => if k' = k then some v else lookupA k rest

def upsert {κ β : Type} [DecidableEq κ] (k : κ) (v : β) : List (κ × β) → List (κ × β)
  | [] => [(k, v)]
  | (k', v') :: rest => if k' = k then (k, v) :: rest else (k', v') :: upsert k v rest

def delKey {κ β : Type} [DecidableEq κ] (k : κ) (l : List (κ × β)) : List (κ × β) :=
  l.filter (fun kv => !decide (kv.1 = k))

structure inMemoryAdjacentMatrix where
  m : List (String × List (Vertex × List Vertex))
deriving DecidableEq

def emptyMatrix : inMemoryAdjacentMatrix := ⟨[]⟩

def AddEdge (a : inMemoryAdjacentMatrix) (name : String) (p c : Vertex) : inMemoryAdjacentMatrix :=
  let matrix := (lookupA name a.m).getD []
  ⟨upsert name (upsert p ((lookupA p matrix).getD [] ++ [c]) matrix) a.m⟩

def AddEdges (a : inMemoryAdjacentMatrix) (name : String) (p : Vertex) (c : List Vertex) : inMemoryAdjacentMatrix :=
  let matrix := (lookupA name a.m).getD []
  ⟨upsert name (upsert p ((lookupA p matrix).getD [] ++ c) matrix) a.m⟩

def Get (a : inMemoryAdjacentMatrix) (name : String) (v : Vertex) : List Vertex :=
  match lookupA name a.m with
  | none => []
  | some matrix => (lookupA v matrix).getD []

def NumberOfEdges (a : inMemoryAdjacentMatrix) (name : String) : Nat :=
  ((lookupA name a.m).getD []).length

/-- the call interface of the adjacency matrix, for statements quantifying
over call sequences -/
inductive MCall where
  | addEdge (name : String) (p c : Vertex)
  | addEdges (name : String) (p : Vertex) (cs : List Vertex)

def applyMCall (a : inMemoryAdjacentMatrix) : MCall → inMemoryAdjacentMatrix
  | .addEdge name p c => AddEdge a name p c
  | .addEdges name p cs => AddEdges a name p cs

def applyMCalls (calls : List MCall) : inMemoryAdjacentMatrix :=
  calls.foldl applyMCall emptyMatrix

/-! ## The module graph (`graph.go`) -/

def dependsOnEdge : String := "depends-on"

def usedByEdge : String := "used-by"

def requiredForEdge : String := "required-for"

def requireEdge : String := "require"

/-- `module.Version.Name` as read by `graph.AddModule`; the `none` case is
unreachable there because validation has already ensured the version block is
set. -/
def versionName (m : Module) : String :=
  match m.Version with
  | some v => v.Name
  | none => ""

def moduleVertex (m : Module) : Vertex :=
  ⟨m.Namespace, m.Name, m.Type_, versionName m⟩

def dependencyVertex (d : ModuleDependency) : Vertex :=
  ⟨d.Namespace, d.Name, d.Type_, d.Version⟩

/-- `dependency.Direction == nil || *dependency.Direction == UPSTREAM` -/
def isUpstream (d : ModuleDependency) : Bool :=
  match d.Direction with
  | none => true
  | some .UPSTREAM => true
  | some .DOWNSTREAM => false

/-- one iteration of the dependency loop in `graph.AddModule` -/
def addDependencyEdges (p : Vertex) (a : inMemoryAdjacentMatrix) (dependency : ModuleDependency) : inMemoryAdjacentMatrix :=
  let v := dependencyVertex dependency
  if isUpstream dependency then
    AddEdge (AddEdge a dependsOnEdge p v) usedByEdge v p
  else
    AddEdge (AddEdge a requiredForEdge p v) requireEdge v p

/-- `graph.AddModule`; the `Option Module` argument models the nullable Go
pointer. -/
def graphAddModule (a : inMemoryAdjacentMatrix) (module : Option Module) : Except String inMemoryAdjacentMatrix :=
  match module with
  | none => .error "module must not be nil"
  | some m =>
    match m.Validate with
    | some err => .error ("module validation failed: " ++ err)
    | none =>
      let p := moduleVertex m
      .ok (m.Dependencies.foldl (addDependencyEdges p) a)

/-! ## Traversals (`graph.go`)

`vertexPairStack` mirrors the Go slice-backed stack: `Push` appends at the
end, `Pop` takes the last element (`emptyStackErr` becomes `none`).  The BFS
queue is a list with the front at the head (`PushBack` appends).  The visited
map becomes a list queried through `contains`.

The unbounded `for` loops become recursion on a fuel counter, one unit per
loop iteration; `none` means the fuel was exhausted before the loop returned,
`some trace` that the loop returned after the recorded visitor invocations. -/

structure vertexPair where
  k : Vertex
  v : Vertex
deriving DecidableEq

structure vertexPairStack where
  s : List vertexPair
deriving DecidableEq

def vertexPairStack.Push (st : vertexPairStack) (k v : Vertex) : vertexPairStack :=
  ⟨st.s ++ [⟨k, v⟩]⟩

def vertexPairStack.Pop (st : vertexPairStack) : Option (Vertex × Vertex × vertexPairStack) :=
  match st.s.getLast? with
  | none => none
  | some res => some (res.k, res.v, ⟨st.s.dropLast⟩)

/-- the loop of `traverseDFS`, returning the list of `fn` invocations in
order.  A `false` visitor return and an empty stack both end the loop. -/
def dfsRun (a : inMemoryAdjacentMatrix) (edgeName : String) (fn : Vertex → Vertex → Bool) :
    Nat → vertexPairStack → List Vertex → Option (List (Vertex × Vertex))
  | 0, _, _ => none
  | fuel + 1, stack, visited =>
    match stack.Pop with
    | none => some []
    | some (p, v, stack') =>
      let visited' := v :: visited
      if fn p v then
        let children := Get a edgeName v
        let stack'' := children.foldl (fun st child => if visited'.contains child then st else st.Push v child) stack'
        match dfsRun a edgeName fn fuel stack'' visited' with
        | none => none
        | some tr => some ((p, v) :: tr)
      else
        some [(p, v)]

def traverseDFS (a : inMemoryAdjacentMatrix) (edgeName : String) (s : Vertex)
    (fn : Vertex → Vertex → Bool) (fuel : Nat) : Option (List (Vertex × Vertex)) :=
  dfsRun a edgeName fn fuel (vertexPairStack.Push ⟨[]⟩ emptyVertex s) []

/-- the inner `for _, child := range children` loop of `traverseBFS`: mark and
enqueue each child not yet visited (the map is consulted as it grows). -/
def bfsAbsorb (visited queue : List Vertex) : List Vertex → List Vertex × List Vertex
  | [] => (visited, queue)
  | child :: rest =>
    if visited.contains child then
      bfsAbsorb visited queue rest
    else
      bfsAbsorb (child :: visited) (queue ++ [child]) rest

/-- the loop of `traverseBFS`, returning the list of `fn` invocations in
order -/
def bfsRun (a : inMemoryAdjacentMatrix) (edgeName : String) (fn : Vertex → List Vertex → Bool) :
    Nat → List Vertex → List Vertex → Option (List (Vertex × List Vertex))
  | 0, _, _ => none
  | fuel + 1, queue, visited =>
    match queue with
    | [] => some []
    | qv :: rest =>
      let children := Get a edgeName qv
      if fn qv children then
        let vq := bfsAbsorb visited rest children
        match bfsRun a edgeName fn fuel vq.2 vq.1 with
        | none => none
        | some tr => some ((qv, children) :: tr)
      else
        some [(qv, children)]

def traverseBFS (a : inMemoryAdjacentMatrix) (edgeName : String) (s : Vertex)
    (fn : Vertex → List Vertex → Bool) (fuel : Nat) : Option (List (Vertex × List Vertex)) :=
  bfsRun a edgeName fn fuel [s] [s]

/-! ## In-memory repository (`inmemory_repository.go`)

The four-level nested Go maps become nested association lists.  `proto.Clone`
produces a value equal to its argument, and the embedding uses value
semantics, so cloning is the identity here. -/

structure inMemoryRepository where
  data : List (String × List (String × List (String × List (String × Module))))

def emptyRepository : inMemoryRepository := ⟨[]⟩

def repoAddModule (r : inMemoryRepository) (module : Option Module) : Except String inMemoryRepository :=
  match module with
  | none => .error "module must not be nil"
  | some m =>
    match m.Validate with
    | some err => .error ("module validation failed: " ++ err)
    | none =>
      let moduleNames := (lookupA m.Namespace r.data).getD []
      let moduleTypes := (lookupA m.Name moduleNames).getD []
      let moduleVersions := (lookupA m.Type_ moduleTypes).getD []
      .ok ⟨upsert m.Namespace
            (upsert m.Name
              (upsert m.Type_
                (upsert (versionName m) m moduleVersions)
                moduleTypes)
              moduleNames)
            r.data⟩

def repoDeleteNamespace (r : inMemoryRepository) (ns : String) : inMemoryRepository :=
  ⟨delKey ns r.data⟩

def repoDeleteModule (r : inMemoryRepository) (ns name : String) : inMemoryRepository :=
  match lookupA ns r.data with
  | none => r
  | some moduleNames => ⟨upsert ns (delKey name moduleNames) r.data⟩

def repoDeleteModuleType (r : inMemoryRepository) (ns name type_ : String) : inMemoryRepository :=
  match lookupA ns r.data with
  | none => r
  | some moduleNames =>
    match lookupA name moduleNames with
    | none => r
    | some moduleTypes => ⟨upsert ns (upsert name (delKey type_ moduleTypes) moduleNames) r.data⟩

def repoDeleteModuleVersion (r : inMemoryRepository) (ns name type_ version : String) : inMemoryRepository :=
  match lookupA ns r.data with
  | none => r
  | some moduleNames =>
    match lookupA name moduleNames with
    | none => r
    | some moduleTypes =>
      match lookupA type_ moduleTypes with
      | none => r
      | some moduleVersions =>
        ⟨upsert ns (upsert name (upsert type_ (delKey version moduleVersions) moduleTypes) moduleNames) r.data⟩

/-- the four-level lookup shared by `GetModule` -/
def repoStored (r : inMemoryRepository) (ns name type_ version : String) : Option Module :=
  match lookupA ns r.data with
  | none => none
  | some moduleNames =>
    match lookupA name moduleNames with
    | none => none
    | some moduleTypes =>
      match lookupA type_ moduleTypes with
      | none => none
      | some moduleVersions => lookupA version moduleVersions

def repoGetModule (r : inMemoryRepository) (ns name type_ version : String) : Except String Module :=
  match repoStored r ns name type_ version with
  | some m => .ok m
  | none => .error "not found"

/-- the repository call interface, for statements quantifying over call
sequences -/
inductive RepoOp where
  | add (m : Module)
  | delNamespace (ns : String)
  | delModule (ns name : String)
  | delModuleType (ns name type_ : String)
  | delModuleVersion (ns name type_ version : String)

def applyRepoOp (r : inMemoryRepository) : RepoOp → inMemoryRepository
  | .add m =>
    match repoAddModule r (some m) with
    | .ok r' => r'
    | .error _ => r
  | .delNamespace ns => repoDeleteNamespace r ns
  | .delModule ns name => repoDeleteModule r ns name
  | .delModuleType ns name type_ => repoDeleteModuleType r ns name type_
  | .delModuleVersion ns name type_ version => repoDeleteModuleVersion r ns name type_ version

def applyRepoOps (ops : List RepoOp) : inMemoryRepository :=
  ops.foldl applyRepoOp emptyRepository

/-- the identity tuple under which an added module is stored -/
def moduleId (m : Module) : String × String × String × String :=
  (m.Namespace, m.Name, m.Type_, versionName m)

def isAddOf (t : String × String × String × String) : RepoOp → Prop
  | .add m => moduleId m = t
  | _ => False

/-! ## Paths and the file repository (`file_repository.go`)

Paths stay strings, as in the source.  `pathJoin` models Go `path.Join`:
empty elements are skipped, the rest are joined with `/`, and the result is
passed through `path.Clean` (`pathClean`), which collapses duplicate
separators, eliminates `.` elements and resolves `..` elements lexically.
The filesystem is a state value: existing directories, record files (keyed by
path, holding the stored record; the binary codec round-trips, so the content
is the record itself) and lock files.  `os.Stat` succeeds on any of the
three. -/

def splitChar (sep : Char) : List Char → List (List Char)
  | [] => [[]]
  | c :: cs =>
    if c = sep then
      [] :: splitChar sep cs
    else
      match splitChar sep cs with
      | [] => [[c]]
      | s :: rest => (c :: s) :: rest

/-- the `/`-separated pieces of a path, empty pieces dropped -/
def segsOfStr (s : String) : List (List Char) :=
  (splitChar '/' s.data).filter (fun seg => seg ≠ [])

/-- join segments with `/` -/
def joinSegs : List (List Char) → List Char
  | [] => []
  | [s] => s
  | s :: rest => s ++ '/' :: joinSegs rest

/-- one element-processing step of Go `path.Clean`: empty and `.` elements
are dropped; `..` removes the preceding element when there is one that is not
itself a kept `..`, and otherwise is kept only on a relative path (on a
rooted path a `..` at the root is dropped) -/
def cleanStep (rooted : Bool) (out : List (List Char)) (seg : List Char) : List (List Char) :=
  if seg = [] ∨ seg = ['.'] then out
  else if seg = ['.', '.'] then
    if out ≠ [] ∧ out.getLast? ≠ some ['.', '.'] then out.dropLast
    else if rooted then out else out ++ [['.', '.']]
  else out ++ [seg]

def cleanSegs (rooted : Bool) (segs : List (List Char)) : List (List Char) :=
  segs.foldl (cleanStep rooted) []

def isRooted (s : String) : Bool := decide (s.data.head? = some '/')

/-- Go `path.Clean`: lexical simplification of the path — `//` collapsed,
`.` elements eliminated, `..` elements resolved against preceding elements
(and dropped at the root of a rooted path); an empty result is `/` for a
rooted path and `.` otherwise -/
def pathClean (s : String) : String :=
  if s.data = [] then "."
  else if cleanSegs (isRooted s) (splitChar '/' s.data) = [] then
    (if isRooted s then "/" else ".")
  else if isRooted s then
    ⟨'/' :: joinSegs (cleanSegs (isRooted s) (splitChar '/' s.data))⟩
  else
    ⟨joinSegs (cleanSegs (isRooted s) (splitChar '/' s.data))⟩

/-- Go `path.Join`: empty elements are skipped, the remaining ones are joined
with `/` and the result is passed through `path.Clean`; with no nonempty
element the result is the empty string -/
def pathJoin (parts : List String) : String :=
  if parts.filter (fun p => decide (p.data ≠ [])) = [] then ""
  else pathClean ⟨joinSegs ((parts.filter (fun p => decide (p.data ≠ []))).map String.data)⟩

/-- what `path.Clean` leaves of a rooted path's own segments — the cleaned
prefix shared by every absolute path the repository derives from its root -/
def rootSegs (root : String) : List (List Char) :=
  cleanSegs true (splitChar '/' root.data)

/-- Go `filepath.SplitList`: splits on the OS path-list separator `:` (not on
`/`); the empty string yields an empty list. -/
def splitList (path : String) : List String :=
  if path = "" then [] else (splitChar ':' path.data).map (fun cs => String.mk cs)

def modulesDirectory : String := "modules"

def moduleFileExtension : String := "module.bin"

def getAbsoluteModuleNamespaceDirectoryPath (root ns : String) : String :=
  pathJoin [root, ns]

def getAbsoluteModuleNameDirectoryPath (root ns name : String) : String :=
  pathJoin [root, ns, name]

def getAbsoluteModuleTypeDirectoryPath (root ns name type_ : String) : String :=
  pathJoin [root, ns, name, type_]

def getAbsoluteModuleFilePath (root ns name type_ version : String) : String :=
  pathJoin [root, ns, name, type_, version ++ "." ++ moduleFileExtension]

/-- `flock.New(absFilePath + ".lock")` -/
def lockFilePath (root ns name type_ version : String) : String :=
  getAbsoluteModuleFilePath root ns name type_ version ++ ".lock"

structure FS where
  dirs : List String
  files : List (String × Module)
  locks : List String

/-- the state after `NewFileRepository`: the `modules` root directory exists
(ancestors of the root are outside the modelled tree) -/
def initFS (root : String) : FS :=
  ⟨[root], [], []⟩

def statFS (fs : FS) (p : String) : Bool :=
  fs.dirs.contains p || (fs.files.map Prod.fst).contains p || fs.locks.contains p

/-- `os.Remove` of a single path -/
def removeFS (fs : FS) (p : String) : FS :=
  ⟨fs.dirs.filter (fun q => q ≠ p), fs.files.filter (fun qm => qm.1 ≠ p), fs.locks.filter (fun q => q ≠ p)⟩

/-- `os.RemoveAll`: the path itself and everything below it -/
def removeAllFS (fs : FS) (p : String) : FS :=
  let gone := fun (q : String) => q = p ∨ (p.data ++ ['/']).isPrefixOf q.data
  ⟨fs.dirs.filter (fun q => ¬ gone q), fs.files.filter (fun qm => ¬ gone qm.1), fs.locks.filter (fun q => ¬ gone q)⟩

def insertIfAbsent (p : String) (l : List String) : List String :=
  if l.contains p then l else p :: l

/-- `q` is a directory entry directly inside `p` -/
def isDirectChildOf (q p : String) : Bool :=
  (p.data ++ ['/']).isPrefixOf q.data && !((q.data.drop (p.data.length + 1)).contains '/')

/-- `ioutil.ReadDir` result size -/
def readDirCount (fs : FS) (p : String) : Nat :=
  ((fs.dirs ++ fs.files.map Prod.fst ++ fs.locks).filter (fun q => isDirectChildOf q p)).length

/-- `fileRepository.cleanup`.  `filepath.SplitList` splits the path on `:`,
not on `/`; the loop `for i := len(splitPath)-1; i <= 0; i--` is entered only
when the split has at most one element, and every branch of its body returns,
so at most one iteration runs.  With one element the single iteration looks at
`subPath = filepath.Join()` which is the empty string.  An empty split (empty
path) would index `splitPath[-1]`, a Go runtime panic. -/
def cleanup (fs : FS) (path : String) : FS × Option String :=
  match splitList path with
  | [] => (fs, some "panic: runtime error: index out of range")
  | [pathSeg] =>
    if pathSeg = modulesDirectory then
      (fs, none)
    else
      let subPath := ""
      if !statFS fs subPath then
        (fs, none)
      else if readDirCount fs subPath = 0 then
        (removeFS fs subPath, none)
      else
        (fs, none)
  | _ :: _ :: _ => (fs, none)

/-- `fileRepository.AddModule`: validate, marshal, `MkdirAll` the type
directory, lock (creating the companion lock file), write the record file
(truncate-and-write). -/
def fileAddModule (root : String) (fs : FS) (module : Option Module) : FS × Option String :=
  match module with
  | none => (fs, some "module must not be nil")
  | some m =>
    match m.Validate with
    | some err => (fs, some ("module validation failed: " ++ err))
    | none =>
      let nsDir := getAbsoluteModuleNamespaceDirectoryPath root m.Namespace
      let nameDir := getAbsoluteModuleNameDirectoryPath root m.Namespace m.Name
      let typeDir := getAbsoluteModuleTypeDirectoryPath root m.Namespace m.Name m.Type_
      let filePath := getAbsoluteModuleFilePath root m.Namespace m.Name m.Type_ (versionName m)
      ( ⟨insertIfAbsent typeDir (insertIfAbsent nameDir (insertIfAbsent nsDir fs.dirs)),
         upsert filePath m fs.files,
         insertIfAbsent (filePath ++ ".lock") fs.locks⟩
      , none )

/-- `fileRepository.GetModule`: a failing `os.Stat` is `not found`; otherwise
the path is locked, read and unmarshalled — which yields the stored record
when the path is a record file, and a read/unmarshal error otherwise. -/
def fileGetModule (root : String) (fs : FS) (ns name type_ version : String) : Except String Module :=
  let targetAbsModuleFilePath := getAbsoluteModuleFilePath root ns name type_ version
  if !statFS fs targetAbsModuleFilePath then
    .error "not found"
  else
    match lookupA targetAbsModuleFilePath fs.files with
    | some m => .ok m
    | none => .error ("could not read module file: " ++ targetAbsModuleFilePath)

def fileDeleteNamespace (root : String) (fs : FS) (ns : String) : FS :=
  removeAllFS fs (getAbsoluteModuleNamespaceDirectoryPath root ns)

def fileDeleteModule (root : String) (fs : FS) (ns name : String) : FS × Option String :=
  cleanup (removeAllFS fs (getAbsoluteModuleNameDirectoryPath root ns name))
    (getAbsoluteModuleNamespaceDirectoryPath root ns)

def fileDeleteModuleType (root : String) (fs : FS) (ns name type_ : String) : FS × Option String :=
  cleanup (removeAllFS fs (getAbsoluteModuleTypeDirectoryPath root ns name type_))
    (getAbsoluteModuleNameDirectoryPath root ns name)

def fileDeleteModuleVersion (root : String) (fs : FS) (ns name type_ version : String) : FS × Option String :=
  let filePath := getAbsoluteModuleFilePath root ns name type_ version
  let fs1 := if statFS fs filePath then removeFS fs filePath else fs
  cleanup fs1 (getAbsoluteModuleTypeDirectoryPath root ns name type_)

def applyFileOp (root : String) (fs : FS) : RepoOp → FS
  | .add m => (fileAddModule root fs (some m)).1
  | .delNamespace ns => fileDeleteNamespace root fs ns
  | .delModule ns name => (fileDeleteModule root fs ns name).1
  | .delModuleType ns name type_ => (fileDeleteModuleType root fs ns name type_).1
  | .delModuleVersion ns name type_ version => (fileDeleteModuleVersion root fs ns name type_ version).1

def applyFileOps (root : String) (ops : List RepoOp) : FS :=
  ops.foldl (applyFileOp root) (initFS root)

/-! ## Auxiliary definitions for the statements -/

instance {ε α : Type} [DecidableEq ε] [DecidableEq α] : DecidableEq (Except ε α) := fun a b =>
  match a, b with
  | .ok x, .ok y => decidable_of_iff (x = y) (by simp)
  | .error x, .error y => decidable_of_iff (x = y) (by simp)
  | .ok _, .error _ => isFalse (by simp)
  | .error _, .ok _ => isFalse (by simp)

instance : DecidableEq inMemoryRepository := fun a b =>
  decidable_of_iff (a.data = b.data) (by cases a; cases b; simp)

instance : DecidableEq FS := fun a b =>
  decidable_of_iff (a.dirs = b.dirs ∧ a.files = b.files ∧ a.locks = b.locks)
    (by cases a; cases b; simp)

/-- `s` starts with the string `pre` -/
def strStartsWith (pre s : String) : Bool :=
  pre.data.isPrefixOf s.data

/-- an `MCall` that never stores an empty children list -/
def mcallNonempty : MCall → Prop
  | .addEdge _ _ _ => True
  | .addEdges _ _ cs => cs ≠ []

/-- invariant of the inner map at `name`: parent keys are distinct, every
stored children list is nonempty -/
def matrixInv (a : inMemoryAdjacentMatrix) (name : String) : Prop :=
  (((lookupA name a.m).getD []).map Prod.fst).Nodup
  ∧ ∀ pv ∈ (lookupA name a.m).getD [], pv.2 ≠ ([] : List Vertex)

/-- identity tuples of all `add` operations in a call sequence -/
def opAddIds (ops : List RepoOp) : List (String × String × String × String) :=
  ops.filterMap (fun op => match op with
    | .add m => some (moduleId m)
    | _ => none)

def idFilePath (root : String) (t : String × String × String × String) : String :=
  getAbsoluteModuleFilePath root t.1 t.2.1 t.2.2.1 t.2.2.2

def fileGetModuleId (root : String) (fs : FS) (t : String × String × String × String) : Except String Module :=
  fileGetModule root fs t.1 t.2.1 t.2.2.1 t.2.2.2

def repoGetModuleId (r : inMemoryRepository) (t : String × String × String × String) : Except String Module :=
  repoGetModule r t.1 t.2.1 t.2.2.1 t.2.2.2

/-- a string usable as a single path component that `path.Clean` passes
through unchanged: nonempty, free of `/`, and not one of the special elements
`.` and `..` (module identity components that pass validation have this
shape, since they must start with a lowercase alphabetic or alphanumeric
character) -/
def cleanStr (s : String) : Prop :=
  s.data ≠ [] ∧ '/' ∉ s.data ∧ s.data ≠ ['.'] ∧ s.data ≠ ['.', '.']

def cleanId (t : String × String × String × String) : Prop :=
  cleanStr t.1 ∧ cleanStr t.2.1 ∧ cleanStr t.2.2.1 ∧ cleanStr t.2.2.2

/-- every entry of `fs'` is an entry of `fs` -/
def fsSub (fs' fs : FS) : Prop :=
  (∀ pm ∈ fs'.files, pm ∈ fs.files) ∧ (∀ p ∈ fs'.locks, p ∈ fs.locks) ∧ (∀ p ∈ fs'.dirs, p ∈ fs.dirs)

/-- every filesystem entry stems from one of the validated added identities:
record files at the identity's file path, lock files next to them, and
directories at the three identity directory levels (plus the `modules`
root) -/
def fsInv (root : String) (ids : List (String × String × String × String)) (fs : FS) : Prop :=
  (∀ pm ∈ fs.files, ∃ t ∈ ids, cleanId t ∧ pm.1 = idFilePath root t)
  ∧ (∀ p ∈ fs.locks, ∃ t ∈ ids, cleanId t ∧ p = idFilePath root t ++ ".lock")
  ∧ (∀ p ∈ fs.dirs, p = root ∨ ∃ t ∈ ids, cleanId t ∧
      (p = getAbsoluteModuleNamespaceDirectoryPath root t.1
       ∨ p = getAbsoluteModuleNameDirectoryPath root t.1 t.2.1
       ∨ p = getAbsoluteModuleTypeDirectoryPath root t.1 t.2.1 t.2.2.1))

/-! ### Termination measures for the two traversal loops -/

/-- all vertices occurring in some children list of the matrix -/
def childUniverse (a : inMemoryAdjacentMatrix) : List Vertex :=
  a.m.flatMap (fun nm => nm.2.flatMap (fun pv => pv.2))

/-- the total number of child entries: an upper bound on the length of any
single children list -/
def totalChildren (a : inMemoryAdjacentMatrix) : Nat :=
  (a.m.map (fun nm => (nm.2.map (fun pv => pv.2.length)).sum)).sum

def dfsWeight (U : Finset Vertex) (B : Nat) (visited : List Vertex) (e : vertexPair) : Nat :=
  B ^ ((U \ visited.toFinset).erase e.v).card

def dfsMeasure (U : Finset Vertex) (B : Nat) (stack : vertexPairStack) (visited : List Vertex) : Nat :=
  (stack.s.map (dfsWeight U B visited)).sum

def bfsMeasure (U : Finset Vertex) (queue visited : List Vertex) : Nat :=
  2 * (U \ visited.toFinset).card + queue.length

/-! ### Concrete inputs used by witnesses and counterexamples -/

def va : Vertex := ⟨"a", "", "", ""⟩

def vb : Vertex := ⟨"b", "", "", ""⟩

def vc : Vertex := ⟨"c", "", "", ""⟩

/-- a graph in which vertex `b` can sit on the DFS stack twice before it is
first popped: `a → [b, c]` and `c → [b]` -/
def mDiamond : inMemoryAdjacentMatrix :=
  AddEdges (AddEdges emptyMatrix "e" va [vb, vc]) "e" vc [vb]

/-- `AddModule({})`: the zero-valued module record -/
def emptyModule : Module := ⟨"", "", "", none, [], []⟩

/-- a minimal valid module record with identity `(a, b, c, v1)` -/
def m0 : Module := ⟨"a", "b", "c", some ⟨"v1", none, []⟩, [], []⟩

/-- the in-memory repository after adding `m0` to the empty repository -/
def rAfter0 : inMemoryRepository := ⟨[("a", [("b", [("c", [("v1", m0)])])])]⟩

/-- an upstream dependency record -/
def d1 : ModuleDependency := ⟨"com.example", "lib", "go", "v1.2.3", none⟩

/-- a downstream dependency record -/
def d2 : ModuleDependency := ⟨"com.example", "registry", "protobuf", "v2.0.0", some .DOWNSTREAM⟩

/-- a valid module record with one upstream and one downstream dependency -/
def mDep : Module := ⟨"com.example", "product", "go", some ⟨"v1.0.0", none, []⟩, [], [d1, d2]⟩

def fileRoot : String := pathJoin ["/repo", modulesDirectory]

/-- the file-repository state after `AddModule(m0)` on a fresh repository
rooted at `/repo` -/
def fsAfterAdd : FS := (fileAddModule fileRoot (initFS fileRoot) (some m0)).1

/-- the state after `DeleteModuleVersion` of `m0`'s identity -/
def fsAfterDel : FS := (fileDeleteModuleVersion fileRoot fsAfterAdd "a" "b" "c" "v1").1

/-- the adjacency matrix after adding `mDep` to an empty graph -/
def aDep : inMemoryAdjacentMatrix :=
  match graphAddModule emptyMatrix (some mDep) with
  | .ok a => a
  | .error _ => emptyMatrix

/-- the adjacency matrix after adding `mDep` twice -/
def aDep2 : inMemoryAdjacentMatrix :=
  match graphAddModule aDep (some mDep) with
  | .ok a => a
  | .error _ => emptyMatrix

/-! ## Lemmas about the association-list map model -/

theorem lookupA_upsert_self {κ β : Type} [DecidableEq κ] (k : κ) (v : β) (l : List (κ × β)) :
    lookupA k (upsert k v l) = some v := by
  induction l with
  | nil => simp [upsert, lookupA]
  | cons kv rest ih =>
    obtain ⟨k', v'⟩ := kv
    by_cases h : k' = k
    · simp [upsert, h, lookupA]
    · simp [upsert, h, lookupA, ih]

theorem lookupA_upsert_ne {κ β : Type} [DecidableEq κ] {q k : κ} (v : β) (l : List (κ × β))
    (h : q ≠ k) : lookupA q (upsert k v l) = lookupA q l := by
  induction l with
  | nil => simp [upsert, lookupA, Ne.symm h]
  | cons kv rest ih =>
    obtain ⟨k', v'⟩ := kv
    by_cases hk : k' = k
    · subst hk
      simp [upsert, lookupA, Ne.symm h]
    · by_cases hq : k' = q <;> simp [upsert, hk, lookupA, hq, h, ih]

theorem mem_of_lookupA {κ β : Type} [DecidableEq κ] {k : κ} {v : β} {l : List (κ × β)}
    (h : lookupA k l = some v) : (k, v) ∈ l := by
  induction l with
  | nil => simp [lookupA] at h
  | cons kv rest ih =>
    obtain ⟨k', v'⟩ := kv
    by_cases hk : k' = k
    · subst hk
      simp [lookupA] at h
      simp [h]
    · simp only [lookupA, if_neg hk] at h
      exact List.mem_cons_of_mem _ (ih h)

theorem lookupA_eq_none_iff {κ β : Type} [DecidableEq κ] (k : κ) (l : List (κ × β)) :
    lookupA k l = none ↔ k ∉ l.map Prod.fst := by
  induction l with
  | nil => simp [lookupA]
  | cons kv rest ih =>
    obtain ⟨k', v'⟩ := kv
    by_cases hk : k' = k
    · subst hk
      simp [lookupA]
    · simp only [lookupA, if_neg hk, List.map_cons, List.mem_cons, ih]
      constructor
      · intro hn hmem
        rcases hmem with hmem | hmem
        · exact hk hmem.symm
        · exact hn hmem
      · intro hn hmem
        exact hn (Or.inr hmem)

theorem lookupA_delKey_self {κ β : Type} [DecidableEq κ] (k : κ) (l : List (κ × β)) :
    lookupA k (delKey k l) = none := by
  induction l with
  | nil => simp [delKey, lookupA]
  | cons kv rest ih =>
    obtain ⟨k', v'⟩ := kv
    by_cases hk : k' = k
    · subst hk
      simpa [delKey, List.filter_cons] using ih
    · simp only [delKey, List.filter_cons] at ih ⊢
      simp only [hk, decide_not, decide_eq_true_eq]
      simpa [lookupA, hk] using ih

theorem lookupA_delKey_ne {κ β : Type} [DecidableEq κ] {q k : κ} (l : List (κ × β))
    (h : q ≠ k) : lookupA q (delKey k l) = lookupA q l := by
  induction l with
  | nil => simp [delKey, lookupA]
  | cons kv rest ih =>
    obtain ⟨k', v'⟩ := kv
    by_cases hk : k' = k
    · subst hk
      simp only [delKey, List.filter_cons] at ih ⊢
      simpa [lookupA, Ne.symm h] using ih
    · simp only [delKey, List.filter_cons] at ih ⊢
      by_cases hq : k' = q <;> simp [lookupA, hk, hq, h, ih]

theorem keys_upsert_mem {κ β : Type} [DecidableEq κ] (k : κ) (v : β) (l : List (κ × β))
    (h : k ∈ l.map Prod.fst) : (upsert k v l).map Prod.fst = l.map Prod.fst := by
  induction l with
  | nil => simp at h
  | cons kv rest ih =>
    obtain ⟨k', v'⟩ := kv
    by_cases hk : k' = k
    · simp [upsert, hk]
    · simp only [List.map_cons, List.mem_cons] at h
      rcases h with h | h
      · exact absurd h.symm hk
      · simp [upsert, hk, ih h]

theorem keys_upsert_not_mem {κ β : Type} [DecidableEq κ] (k : κ) (v : β) (l : List (κ × β))
    (h : k ∉ l.map Prod.fst) : (upsert k v l).map Prod.fst = l.map Prod.fst ++ [k] := by
  induction l with
  | nil => simp [upsert]
  | cons kv rest ih =>
    obtain ⟨k', v'⟩ := kv
    simp only [List.map_cons, List.mem_cons] at h
    push_neg at h
    by_cases hk : k' = k
    · exact absurd hk.symm h.1
    · simp [upsert, hk, ih h.2]

/-! ## Lemmas about the adjacency matrix operations -/

theorem get_addEdges_same (a : inMemoryAdjacentMatrix) (name : String) (p : Vertex) (cs : List Vertex) :
    Get (AddEdges a name p cs) name p = Get a name p ++ cs := by
  unfold AddEdges Get
  cases h : lookupA name a.m with
  | none => simp [h, lookupA_upsert_self, lookupA]
  | some matrix => simp [h, lookupA_upsert_self]

theorem get_addEdge_same (a : inMemoryAdjacentMatrix) (name : String) (p c : Vertex) :
    Get (AddEdge a name p c) name p = Get a name p ++ [c] := by
  unfold AddEdge Get
  cases h : lookupA name a.m with
  | none => simp [h, lookupA_upsert_self, lookupA]
  | some matrix => simp [h, lookupA_upsert_self]

theorem get_addEdge_ne (a : inMemoryAdjacentMatrix) {name name' : String} {p q : Vertex} (c : Vertex)
    (h : name' ≠ name ∨ q ≠ p) : Get (AddEdge a name p c) name' q = Get a name' q := by
  unfold AddEdge Get
  rcases h with h | h
  · rw [lookupA_upsert_ne _ _ h]
  · by_cases he : name' = name
    · subst he
      cases hn : lookupA name' a.m with
      | none => simp [hn, lookupA_upsert_self, lookupA_upsert_ne _ _ h, lookupA, Ne.symm h]
      | some matrix => simp [hn, lookupA_upsert_self, lookupA_upsert_ne _ _ h]
    · simp [lookupA_upsert_ne _ _ he]

theorem numberOfEdges_addEdges (a : inMemoryAdjacentMatrix) (name : String) (p : Vertex) (cs : List Vertex) :
    NumberOfEdges (AddEdges a name p cs) name =
      (if p ∈ ((lookupA name a.m).getD []).map Prod.fst then NumberOfEdges a name
       else NumberOfEdges a name + 1) := by
  unfold AddEdges NumberOfEdges
  rw [lookupA_upsert_self]
  by_cases h : p ∈ ((lookupA name a.m).getD []).map Prod.fst
  · rw [if_pos h]
    have := keys_upsert_mem p ((lookupA p ((lookupA name a.m).getD [])).getD [] ++ cs) ((lookupA name a.m).getD []) h
    have hlen := congrArg List.length this
    simpa using hlen
  · rw [if_neg h]
    have := keys_upsert_not_mem p ((lookupA p ((lookupA name a.m).getD [])).getD [] ++ cs) ((lookupA name a.m).getD []) h
    have hlen := congrArg List.length this
    simpa using hlen

/-! ## Lemmas about `graph.AddModule` -/

theorem addDependencyEdges_up (p : Vertex) (b : inMemoryAdjacentMatrix) (d : ModuleDependency)
    (hup : isUpstream d = true) :
    addDependencyEdges p b d
      = AddEdge (AddEdge b dependsOnEdge p (dependencyVertex d)) usedByEdge (dependencyVertex d) p := by
  simp [addDependencyEdges, hup]

theorem addDependencyEdges_down (p : Vertex) (b : inMemoryAdjacentMatrix) (d : ModuleDependency)
    (hdown : isUpstream d = false) :
    addDependencyEdges p b d
      = AddEdge (AddEdge b requiredForEdge p (dependencyVertex d)) requireEdge (dependencyVertex d) p := by
  simp [addDependencyEdges, hdown]

theorem get_step_dependsOn (p : Vertex) (b : inMemoryAdjacentMatrix) (d : ModuleDependency) (q : Vertex) :
    Get (addDependencyEdges p b d) dependsOnEdge q =
      Get b dependsOnEdge q ++ (if isUpstream d = true ∧ q = p then [dependencyVertex d] else []) := by
  by_cases hup : isUpstream d = true
  · rw [addDependencyEdges_up p b d hup, get_addEdge_ne _ _ (Or.inl (by decide))]
    by_cases hq : q = p
    · subst hq
      rw [get_addEdge_same]
      simp [hup]
    · rw [get_addEdge_ne _ _ (Or.inr hq)]
      simp [hq]
  · have hf : isUpstream d = false := by simpa using hup
    rw [addDependencyEdges_down p b d hf, get_addEdge_ne _ _ (Or.inl (by decide)),
      get_addEdge_ne _ _ (Or.inl (by decide))]
    simp [hf]

theorem get_step_usedBy (p : Vertex) (b : inMemoryAdjacentMatrix) (d : ModuleDependency) (q : Vertex) :
    Get (addDependencyEdges p b d) usedByEdge q =
      Get b usedByEdge q ++ (if isUpstream d = true ∧ q = dependencyVertex d then [p] else []) := by
  by_cases hup : isUpstream d = true
  · rw [addDependencyEdges_up p b d hup]
    by_cases hq : q = dependencyVertex d
    · subst hq
      rw [get_addEdge_same, get_addEdge_ne _ _ (Or.inl (by decide))]
      simp [hup]
    · rw [get_addEdge_ne _ _ (Or.inr hq), get_addEdge_ne _ _ (Or.inl (by decide))]
      simp [hq]
  · have hf : isUpstream d = false := by simpa using hup
    rw [addDependencyEdges_down p b d hf, get_addEdge_ne _ _ (Or.inl (by decide)),
      get_addEdge_ne _ _ (Or.inl (by decide))]
    simp [hf]

theorem get_step_requiredFor (p : Vertex) (b : inMemoryAdjacentMatrix) (d : ModuleDependency) (q : Vertex) :
    Get (addDependencyEdges p b d) requiredForEdge q =
      Get b requiredForEdge q ++ (if isUpstream d = false ∧ q = p then [dependencyVertex d] else []) := by
  by_cases hup : isUpstream d = true
  · rw [addDependencyEdges_up p b d hup, get_addEdge_ne _ _ (Or.inl (by decide)),
      get_addEdge_ne _ _ (Or.inl (by decide))]
    simp [hup]
  · have hf : isUpstream d = false := by simpa using hup
    rw [addDependencyEdges_down p b d hf, get_addEdge_ne _ _ (Or.inl (by decide))]
    by_cases hq : q = p
    · subst hq
      rw [get_addEdge_same]
      simp [hf]
    · rw [get_addEdge_ne _ _ (Or.inr hq)]
      simp [hq]

theorem get_step_require (p : Vertex) (b : inMemoryAdjacentMatrix) (d : ModuleDependency) (q : Vertex) :
    Get (addDependencyEdges p b d) requireEdge q =
      Get b requireEdge q ++ (if isUpstream d = false ∧ q = dependencyVertex d then [p] else []) := by
  by_cases hup : isUpstream d = true
  · rw [addDependencyEdges_up p b d hup, get_addEdge_ne _ _ (Or.inl (by decide)),
      get_addEdge_ne _ _ (Or.inl (by decide))]
    simp [hup]
  · have hf : isUpstream d = false := by simpa using hup
    rw [addDependencyEdges_down p b d hf]
    by_cases hq : q = dependencyVertex d
    · subst hq
      rw [get_addEdge_same, get_addEdge_ne _ _ (Or.inl (by decide))]
      simp [hf]
    · rw [get_addEdge_ne _ _ (Or.inr hq), get_addEdge_ne _ _ (Or.inl (by decide))]
      simp [hq]

theorem get_fold_addDependencyEdges (p : Vertex) (ename : String) (q : Vertex)
    (f : ModuleDependency → List Vertex)
    (hstep : ∀ b d, Get (addDependencyEdges p b d) ename q = Get b ename q ++ f d)
    (deps : List ModuleDependency) :
    ∀ b, Get (deps.foldl (addDependencyEdges p) b) ename q = Get b ename q ++ deps.flatMap f := by
  induction deps with
  | nil => simp
  | cons d rest ih =>
    intro b
    simp only [List.foldl_cons, List.flatMap_cons]
    rw [ih, hstep, List.append_assoc]

theorem graphAddModule_ok_state {a a' : inMemoryAdjacentMatrix} {m : Module}
    (hval : m.Validate = none) (hadd : graphAddModule a (some m) = .ok a') :
    a' = m.Dependencies.foldl (addDependencyEdges (moduleVertex m)) a := by
  simp only [graphAddModule, hval] at hadd
  exact (Except.ok.injEq _ _ ▸ hadd).symm

/-! ## C3: `NumberOfEdges` semantics -/

theorem get_eq (a : inMemoryAdjacentMatrix) (name : String) (p : Vertex) :
    Get a name p = (lookupA p ((lookupA name a.m).getD [])).getD [] := by
  unfold Get
  cases lookupA name a.m <;> simp [lookupA]

theorem mem_upsert {κ β : Type} [DecidableEq κ] {kv : κ × β} {k : κ} {v : β} {l : List (κ × β)}
    (h : kv ∈ upsert k v l) : kv = (k, v) ∨ kv ∈ l := by
  induction l with
  | nil => simpa [upsert] using h
  | cons kv' rest ih =>
    obtain ⟨k', v'⟩ := kv'
    by_cases hk : k' = k
    · simp only [upsert, if_pos hk, List.mem_cons] at h
      rcases h with h | h
      · exact Or.inl h
      · exact Or.inr (List.mem_cons_of_mem _ h)
    · simp only [upsert, if_neg hk, List.mem_cons] at h
      rcases h with h | h
      · exact Or.inr (by simp [h])
      · rcases ih h with h | h
        · exact Or.inl h
        · exact Or.inr (List.mem_cons_of_mem _ h)

theorem matrixInv_empty (name : String) : matrixInv emptyMatrix name := by
  constructor <;> simp [emptyMatrix, lookupA]

theorem matrixInv_addEdges (a : inMemoryAdjacentMatrix) (name name' : String) (p : Vertex)
    (cs : List Vertex) (hcs : cs ≠ []) (hinv : matrixInv a name) :
    matrixInv (AddEdges a name' p cs) name := by
  obtain ⟨hnd, hne⟩ := hinv
  by_cases he : name = name'
  · subst he
    unfold AddEdges matrixInv
    rw [lookupA_upsert_self]
    simp only [Option.getD_some]
    constructor
    · by_cases hp : p ∈ ((lookupA name a.m).getD []).map Prod.fst
      · rw [keys_upsert_mem _ _ _ hp]
        exact hnd
      · rw [keys_upsert_not_mem _ _ _ hp]
        simp only [List.nodup_append, List.nodup_cons, List.nodup_nil]
        refine ⟨hnd, by simp, ?_⟩
        intro x hx
        simp only [List.mem_singleton]
        intro hxp
        exact hp (hxp ▸ hx)
    · intro pv hpv
      rcases mem_upsert hpv with h | h
      · subst h
        simp [hcs]
      · exact hne _ h
  · unfold AddEdges matrixInv
    rw [lookupA_upsert_ne _ _ he]
    exact ⟨hnd, hne⟩

theorem matrixInv_addEdge (a : inMemoryAdjacentMatrix) (name name' : String) (p c : Vertex)
    (hinv : matrixInv a name) : matrixInv (AddEdge a name' p c) name := by
  have h : AddEdge a name' p c = AddEdges a name' p [c] := rfl
  rw [h]
  exact matrixInv_addEdges a name name' p [c] (by simp) hinv

theorem matrixInv_foldCalls (name : String) (calls : List MCall)
    (h : ∀ c ∈ calls, mcallNonempty c) :
    ∀ a, matrixInv a name → matrixInv (calls.foldl applyMCall a) name := by
  induction calls with
  | nil => intro a ha; simpa using ha
  | cons c rest ih =>
    intro a ha
    simp only [List.foldl_cons]
    refine ih (fun c' hc' => h c' (List.mem_cons_of_mem _ hc')) _ ?_
    cases c with
    | addEdge n p c0 => exact matrixInv_addEdge a name n p c0 ha
    | addEdges n p cs =>
      exact matrixInv_addEdges a name n p cs (h _ (List.mem_cons_self _ _)) ha

theorem numberOfEdges_of_inv (a : inMemoryAdjacentMatrix) (name : String)
    (hinv : matrixInv a name) :
    ∃ P : List Vertex, P.Nodup ∧ (∀ p : Vertex, p ∈ P ↔ Get a name p ≠ [])
      ∧ NumberOfEdges a name = P.length := by
  obtain ⟨hnd, hne⟩ := hinv
  refine ⟨((lookupA name a.m).getD []).map Prod.fst, hnd, ?_, by simp [NumberOfEdges]⟩
  intro p
  rw [get_eq]
  constructor
  · intro hp
    cases hl : lookupA p ((lookupA name a.m).getD []) with
    | none =>
      rw [lookupA_eq_none_iff] at hl
      exact absurd hp hl
    | some val =>
      have hv := hne _ (mem_of_lookupA hl)
      simp [hl, hv]
  · intro hget
    by_contra hp
    have hnone := (lookupA_eq_none_iff p ((lookupA name a.m).getD [])).2 hp
    simp [hnone] at hget

/-- C3 (amended): for call sequences where every `AddEdges` has a nonempty
children list, `NumberOfEdges(name)` is the number of distinct parent
vertices with at least one child under `name`. -/
theorem numberOfEdges_distinct_parents (calls : List MCall) (name : String)
    (h : ∀ c ∈ calls, mcallNonempty c) :
    ∃ P : List Vertex, P.Nodup ∧ (∀ p : Vertex, p ∈ P ↔ Get (applyMCalls calls) name p ≠ [])
      ∧ NumberOfEdges (applyMCalls calls) name = P.length :=
  numberOfEdges_of_inv _ name (matrixInv_foldCalls name calls h _ (matrixInv_empty name))

/-- C3 witness: two `AddEdge` calls under the same parent give one distinct
parent, not two. -/
theorem numberOfEdges_distinct_parents_witness :
    (∀ c ∈ [MCall.addEdge "e" va vb, MCall.addEdge "e" va vc], mcallNonempty c)
    ∧ ∃ P : List Vertex, P.Nodup
        ∧ (∀ p : Vertex, p ∈ P ↔ Get (applyMCalls [MCall.addEdge "e" va vb, MCall.addEdge "e" va vc]) "e" p ≠ [])
        ∧ NumberOfEdges (applyMCalls [MCall.addEdge "e" va vb, MCall.addEdge "e" va vc]) "e" = P.length :=
  ⟨by intro c hc; fin_cases hc <;> trivial,
   numberOfEdges_distinct_parents _ "e" (by intro c hc; fin_cases hc <;> trivial)⟩

/-- C3 counterexample: `AddEdges` with an empty children list creates a parent
entry with no children, which `NumberOfEdges` counts although no parent has an
outgoing child edge. -/
theorem numberOfEdges_empty_children_counterexample :
    NumberOfEdges (applyMCalls [MCall.addEdges "e" va []]) "e" = 1
    ∧ ∀ p : Vertex, Get (applyMCalls [MCall.addEdges "e" va []]) "e" p = [] := by
  constructor
  · rfl
  · intro p
    show Get ⟨[("e", [(va, [])])]⟩ "e" p = []
    unfold Get
    by_cases hp : va = p <;> simp [lookupA, hp]

/-! ## C4: validation error message of `AddModule({})` -/

/-- C4 counterexample: the error message produced for the empty record is
`module validation failed: …`, which does not start with the claimed string
`validation failed: namespace: must have at least 1 characters`. -/
theorem addModule_empty_message_counterexample :
    graphAddModule emptyMatrix (some emptyModule)
        = .error "module validation failed: namespace: must have at least 1 characters"
    ∧ strStartsWith "validation failed: namespace: must have at least 1 characters"
        "module validation failed: namespace: must have at least 1 characters" = false := by
  constructor
  · rfl
  · decide

/-- C4 (amended): `AddModule` of the empty record returns a validation error
whose message starts with (in fact equals)
`module validation failed: namespace: must have at least 1 characters`. -/
theorem addModule_empty_message :
    graphAddModule emptyMatrix (some emptyModule)
        = .error "module validation failed: namespace: must have at least 1 characters"
    ∧ strStartsWith "module validation failed: namespace: must have at least 1 characters"
        "module validation failed: namespace: must have at least 1 characters" = true := by
  constructor
  · rfl
  · decide

/-! ## C5, C9: edge duality and non-idempotence of `graph.AddModule` -/

/-- C5: after a successful `graph.AddModule(m)`, every dependency `D` with
absent or UPSTREAM direction contributes both `depends-on(m → D)` and
`used-by(D → m)`; its processing step leaves `required-for` and `require`
untouched and appends exactly the two pair members.  Symmetric for
DOWNSTREAM. -/
theorem addModule_edge_duality
    (a a' : inMemoryAdjacentMatrix) (m : Module) (d : ModuleDependency)
    (hval : m.Validate = none)
    (hadd : graphAddModule a (some m) = .ok a')
    (hd : d ∈ m.Dependencies) :
    (isUpstream d = true →
       dependencyVertex d ∈ Get a' dependsOnEdge (moduleVertex m)
       ∧ moduleVertex m ∈ Get a' usedByEdge (dependencyVertex d)
       ∧ (∀ b q, Get (addDependencyEdges (moduleVertex m) b d) requiredForEdge q = Get b requiredForEdge q)
       ∧ (∀ b q, Get (addDependencyEdges (moduleVertex m) b d) requireEdge q = Get b requireEdge q)
       ∧ (∀ b, Get (addDependencyEdges (moduleVertex m) b d) dependsOnEdge (moduleVertex m)
                = Get b dependsOnEdge (moduleVertex m) ++ [dependencyVertex d]
             ∧ Get (addDependencyEdges (moduleVertex m) b d) usedByEdge (dependencyVertex d)
                = Get b usedByEdge (dependencyVertex d) ++ [moduleVertex m]))
    ∧ (isUpstream d = false →
       dependencyVertex d ∈ Get a' requiredForEdge (moduleVertex m)
       ∧ moduleVertex m ∈ Get a' requireEdge (dependencyVertex d)
       ∧ (∀ b q, Get (addDependencyEdges (moduleVertex m) b d) dependsOnEdge q = Get b dependsOnEdge q)
       ∧ (∀ b q, Get (addDependencyEdges (moduleVertex m) b d) usedByEdge q = Get b usedByEdge q)
       ∧ (∀ b, Get (addDependencyEdges (moduleVertex m) b d) requiredForEdge (moduleVertex m)
                = Get b requiredForEdge (moduleVertex m) ++ [dependencyVertex d]
             ∧ Get (addDependencyEdges (moduleVertex m) b d) requireEdge (dependencyVertex d)
                = Get b requireEdge (dependencyVertex d) ++ [moduleVertex m])) := by
  have ha' := graphAddModule_ok_state hval hadd
  subst ha'
  constructor
  · intro hup
    refine ⟨?_, ?_, ?_, ?_, ?_⟩
    · rw [get_fold_addDependencyEdges (moduleVertex m) dependsOnEdge (moduleVertex m)
        (fun d' => if isUpstream d' = true ∧ moduleVertex m = moduleVertex m then [dependencyVertex d'] else [])
        (fun b d' => get_step_dependsOn (moduleVertex m) b d' (moduleVertex m)) m.Dependencies a]
      refine List.mem_append_right _ ?_
      rw [List.mem_flatMap]
      exact ⟨d, hd, by simp [hup]⟩
    · rw [get_fold_addDependencyEdges (moduleVertex m) usedByEdge (dependencyVertex d)
        (fun d' => if isUpstream d' = true ∧ dependencyVertex d = dependencyVertex d' then [moduleVertex m] else [])
        (fun b d' => get_step_usedBy (moduleVertex m) b d' (dependencyVertex d)) m.Dependencies a]
      refine List.mem_append_right _ ?_
      rw [List.mem_flatMap]
      exact ⟨d, hd, by simp [hup]⟩
    · intro b q
      rw [get_step_requiredFor]
      simp [hup]
    · intro b q
      rw [get_step_require]
      simp [hup]
    · intro b
      constructor
      · rw [get_step_dependsOn]
        simp [hup]
      · rw [get_step_usedBy]
        simp [hup]
  · intro hdown
    refine ⟨?_, ?_, ?_, ?_, ?_⟩
    · rw [get_fold_addDependencyEdges (moduleVertex m) requiredForEdge (moduleVertex m)
        (fun d' => if isUpstream d' = false ∧ moduleVertex m = moduleVertex m then [dependencyVertex d'] else [])
        (fun b d' => get_step_requiredFor (moduleVertex m) b d' (moduleVertex m)) m.Dependencies a]
      refine List.mem_append_right _ ?_
      rw [List.mem_flatMap]
      exact ⟨d, hd, by simp [hdown]⟩
    · rw [get_fold_addDependencyEdges (moduleVertex m) requireEdge (dependencyVertex d)
        (fun d' => if isUpstream d' = false ∧ dependencyVertex d = dependencyVertex d' then [moduleVertex m] else [])
        (fun b d' => get_step_require (moduleVertex m) b d' (dependencyVertex d)) m.Dependencies a]
      refine List.mem_append_right _ ?_
      rw [List.mem_flatMap]
      exact ⟨d, hd, by simp [hdown]⟩
    · intro b q
      rw [get_step_dependsOn]
      simp [hdown]
    · intro b q
      rw [get_step_usedBy]
      simp [hdown]
    · intro b
      constructor
      · rw [get_step_requiredFor]
        simp [hdown]
      · rw [get_step_require]
        simp [hdown]

/-- C5 witness: the duality theorem applied to the concrete record `mDep` and
its upstream dependency `d1`. -/
theorem addModule_edge_duality_witness :
    dependencyVertex d1 ∈ Get aDep dependsOnEdge (moduleVertex mDep)
    ∧ moduleVertex mDep ∈ Get aDep usedByEdge (dependencyVertex d1) := by
  have h := addModule_edge_duality emptyMatrix aDep mDep d1 (by decide) (by decide) (by decide)
  exact ⟨(h.1 rfl).1, (h.1 rfl).2.1⟩

/-- C9: adding the same valid record twice appends its upstream dependency
edge pairs a second time: both pair members occur at least twice
afterwards. -/
theorem addModule_not_idempotent
    (a a1 a2 : inMemoryAdjacentMatrix) (m : Module) (d : ModuleDependency)
    (hval : m.Validate = none)
    (h1 : graphAddModule a (some m) = .ok a1)
    (h2 : graphAddModule a1 (some m) = .ok a2)
    (hd : d ∈ m.Dependencies) (hup : isUpstream d = true) :
    2 ≤ (Get a2 dependsOnEdge (moduleVertex m)).count (dependencyVertex d)
    ∧ 2 ≤ (Get a2 usedByEdge (dependencyVertex d)).count (moduleVertex m) := by
  have e1 := graphAddModule_ok_state hval h1
  have e2 := graphAddModule_ok_state hval h2
  subst e1
  subst e2
  constructor
  · rw [get_fold_addDependencyEdges (moduleVertex m) dependsOnEdge (moduleVertex m)
        (fun d' => if isUpstream d' = true ∧ moduleVertex m = moduleVertex m then [dependencyVertex d'] else [])
        (fun b d' => get_step_dependsOn (moduleVertex m) b d' (moduleVertex m)) m.Dependencies,
      get_fold_addDependencyEdges (moduleVertex m) dependsOnEdge (moduleVertex m)
        (fun d' => if isUpstream d' = true ∧ moduleVertex m = moduleVertex m then [dependencyVertex d'] else [])
        (fun b d' => get_step_dependsOn (moduleVertex m) b d' (moduleVertex m)) m.Dependencies]
    rw [List.count_append, List.count_append]
    have hmem : dependencyVertex d ∈ m.Dependencies.flatMap
        (fun d' => if isUpstream d' = true ∧ moduleVertex m = moduleVertex m then [dependencyVertex d'] else []) := by
      rw [List.mem_flatMap]
      exact ⟨d, hd, by simp [hup]⟩
    have hpos := List.count_pos_iff.2 hmem
    omega
  · rw [get_fold_addDependencyEdges (moduleVertex m) usedByEdge (dependencyVertex d)
        (fun d' => if isUpstream d' = true ∧ dependencyVertex d = dependencyVertex d' then [moduleVertex m] else [])
        (fun b d' => get_step_usedBy (moduleVertex m) b d' (dependencyVertex d)) m.Dependencies,
      get_fold_addDependencyEdges (moduleVertex m) usedByEdge (dependencyVertex d)
        (fun d' => if isUpstream d' = true ∧ dependencyVertex d = dependencyVertex d' then [moduleVertex m] else [])
        (fun b d' => get_step_usedBy (moduleVertex m) b d' (dependencyVertex d)) m.Dependencies]
    rw [List.count_append, List.count_append]
    have hmem : moduleVertex m ∈ m.Dependencies.flatMap
        (fun d' => if isUpstream d' = true ∧ dependencyVertex d = dependencyVertex d' then [moduleVertex m] else []) := by
      rw [List.mem_flatMap]
      exact ⟨d, hd, by simp [hup]⟩
    have hpos := List.count_pos_iff.2 hmem
    omega

/-- C9 witness: adding `mDep` twice leaves its upstream dependency vertex
twice in the `depends-on` list of `mDep`'s vertex. -/
theorem addModule_not_idempotent_witness :
    2 ≤ (Get aDep2 dependsOnEdge (moduleVertex mDep)).count (dependencyVertex d1)
    ∧ 2 ≤ (Get aDep2 usedByEdge (dependencyVertex d1)).count (moduleVertex mDep) :=
  addModule_not_idempotent emptyMatrix aDep aDep2 mDep d1
    (by decide) (by decide) (by decide) (by decide) rfl

/-! ## C7: add/get round-trip in the in-memory repository -/

/-- C7: for a record that validates, `AddModule` followed by `GetModule` on
its identity tuple returns the record itself. -/
theorem addModule_getModule_roundtrip (r r' : inMemoryRepository) (m : Module)
    (hval : m.Validate = none) (hadd : repoAddModule r (some m) = .ok r') :
    repoGetModule r' m.Namespace m.Name m.Type_ (versionName m) = .ok m := by
  simp only [repoAddModule, hval] at hadd
  injection hadd with h
  subst h
  simp only [repoGetModule, repoStored, lookupA_upsert_self]

/-- C7 witness: the round-trip theorem at the concrete record `m0`. -/
theorem addModule_getModule_roundtrip_witness :
    repoGetModule rAfter0 "a" "b" "c" "v1" = .ok m0 :=
  addModule_getModule_roundtrip emptyRepository rAfter0 m0 (by decide) (by decide)

/-! ## Lemmas about the DFS stack and loop -/

theorem pop_push (st : vertexPairStack) (p v : Vertex) :
    (st.Push p v).Pop = some (p, v, st) := by
  cases st with
  | mk l =>
    unfold vertexPairStack.Push vertexPairStack.Pop
    simp [List.getLast?_concat, List.dropLast_concat]

theorem pop_decomp {st st' : vertexPairStack} {p v : Vertex}
    (h : st.Pop = some (p, v, st')) : st.s = st'.s ++ [⟨p, v⟩] := by
  rcases List.eq_nil_or_concat st.s with hnil | ⟨l, x, hx⟩
  · unfold vertexPairStack.Pop at h
    rw [hnil] at h
    simp at h
  · rw [List.concat_eq_append] at hx
    unfold vertexPairStack.Pop at h
    rw [hx, List.getLast?_concat] at h
    simp only [Option.some.injEq, Prod.mk.injEq] at h
    obtain ⟨hk, hv, hst⟩ := h
    subst hst
    rw [hx, List.dropLast_concat]
    cases x
    simp at hk hv
    simp [hk, hv]

theorem foldl_push (v : Vertex) (visited' : List Vertex) (children : List Vertex) :
    ∀ st : vertexPairStack,
      children.foldl (fun st child => if visited'.contains child then st else st.Push v child) st
        = ⟨st.s ++ (children.filter (fun c => !visited'.contains c)).map (fun c => ⟨v, c⟩)⟩ := by
  induction children with
  | nil => intro st; cases st; simp
  | cons c rest ih =>
    intro st
    simp only [List.foldl_cons]
    by_cases hc : visited'.contains c
    · rw [if_pos hc, ih]
      have hc' : c ∈ visited' := by simpa using hc
      simp [List.filter_cons, hc']
    · rw [if_neg hc, ih]
      have hc' : c ∉ visited' := by simpa using hc
      simp [List.filter_cons, hc', vertexPairStack.Push]

theorem dfsRun_succ (a : inMemoryAdjacentMatrix) (e : String) (fn : Vertex → Vertex → Bool)
    (n : Nat) (stack : vertexPairStack) (visited : List Vertex) :
    dfsRun a e fn (n + 1) stack visited =
      match stack.Pop with
      | none => some []
      | some (p, v, stack') =>
        if fn p v then
          match dfsRun a e fn n
              ((Get a e v).foldl
                (fun st child => if (v :: visited).contains child then st else st.Push v child) stack')
              (v :: visited) with
          | none => none
          | some tr => some ((p, v) :: tr)
        else
          some [(p, v)] := rfl

theorem dfsRun_head {a : inMemoryAdjacentMatrix} {e : String} {fn : Vertex → Vertex → Bool}
    {n : Nat} {stack stack' : vertexPairStack} {visited : List Vertex} {tr : List (Vertex × Vertex)}
    {p v : Vertex}
    (hrun : dfsRun a e fn n stack visited = some tr)
    (hpop : stack.Pop = some (p, v, stack')) :
    tr.head? = some (p, v) := by
  cases n with
  | zero => simp [dfsRun] at hrun
  | succ n =>
    simp only [dfsRun_succ, hpop] at hrun
    by_cases hfn : fn p v
    · rw [if_pos hfn] at hrun
      cases hrec : dfsRun a e fn n
          ((Get a e v).foldl
            (fun st child => if (v :: visited).contains child then st else st.Push v child) stack')
          (v :: visited) with
      | none => rw [hrec] at hrun; simp at hrun
      | some tr' =>
        rw [hrec] at hrun
        simp only [Option.some.injEq] at hrun
        subst hrun
        rfl
    · rw [if_neg hfn] at hrun
      simp only [Option.some.injEq] at hrun
      subst hrun
      rfl

/-! ## C6: DFS seeding and last-child-first order -/

/-- C6: (1) for every matrix, edge relation, start vertex, visitor and fuel, a
completing DFS traversal makes its first visitor invocation with the empty
vertex as parent and `s` as vertex; (2) from any configuration whose stack top
is `(p, v)`: after `visitor(p, v)` returns true, the not-yet-seen children of
`v` are appended in iteration order with parent `v`, and the next invocation
(if the run completes) takes the LAST such child — the LIFO order. -/
theorem dfs_first_and_last_child_first :
    (∀ (a : inMemoryAdjacentMatrix) (e : String) (s : Vertex) (fn : Vertex → Vertex → Bool)
        (n : Nat) (tr : List (Vertex × Vertex)),
      traverseDFS a e s fn n = some tr → tr.head? = some (emptyVertex, s))
    ∧ (∀ (a : inMemoryAdjacentMatrix) (e : String) (fn : Vertex → Vertex → Bool) (n : Nat)
        (stack : vertexPairStack) (visited : List Vertex) (p v : Vertex) (tr : List (Vertex × Vertex)),
      dfsRun a e fn n (stack.Push p v) visited = some tr →
      fn p v = true →
      (Get a e v).filter (fun c => !(v :: visited).contains c) ≠ [] →
      tr.head? = some (p, v)
        ∧ tr.tail.head?
            = ((Get a e v).filter (fun c => !(v :: visited).contains c)).getLast?.map (fun c => (v, c))) := by
  constructor
  · intro a e s fn n tr h
    exact dfsRun_head h (pop_push ⟨[]⟩ emptyVertex s)
  · intro a e fn n stack visited p v tr hrun hfn hcs
    cases n with
    | zero => simp [dfsRun] at hrun
    | succ n =>
      simp only [dfsRun_succ, pop_push] at hrun
      rw [if_pos hfn] at hrun
      rw [foldl_push] at hrun
      rcases List.eq_nil_or_concat ((Get a e v).filter (fun c => !(v :: visited).contains c))
        with hnil | ⟨cs', clast, hceq⟩
      · exact absurd hnil hcs
      · rw [List.concat_eq_append] at hceq
        cases hrec : dfsRun a e fn n
            ⟨stack.s ++ ((Get a e v).filter (fun c => !(v :: visited).contains c)).map (fun c => ⟨v, c⟩)⟩
            (v :: visited) with
        | none => rw [hrec] at hrun; simp at hrun
        | some tr' =>
          rw [hrec] at hrun
          simp only [Option.some.injEq] at hrun
          subst hrun
          refine ⟨rfl, ?_⟩
          have hpop2 : (⟨stack.s ++ ((Get a e v).filter (fun c => !(v :: visited).contains c)).map
              (fun c => ⟨v, c⟩)⟩ : vertexPairStack).Pop
              = some (v, clast, ⟨stack.s ++ cs'.map (fun c => ⟨v, c⟩)⟩) := by
            rw [hceq]
            unfold vertexPairStack.Pop
            simp only [List.map_append, List.map_cons, List.map_nil, ← List.append_assoc]
            rw [List.getLast?_concat, List.dropLast_concat]
          have hhead := dfsRun_head hrec hpop2
          simp only [List.tail_cons, hhead, hceq, List.getLast?_concat]
          rfl

/-! ## C1: visitor invocation multiplicity (failing input for DFS) -/

/-- C1 at the failing input: on the graph `a → [b, c]`, `c → [b]` with an
always-true visitor, BFS calls the visitor exactly once per reachable vertex,
but DFS calls it TWICE for `b` — `b` is pushed under both parents before its
first pop, and the pop does not re-check the visited set. -/
theorem dfs_visits_vertex_twice :
    traverseDFS mDiamond "e" va (fun _ _ => true) 10
      = some [(emptyVertex, va), (va, vc), (vc, vb), (va, vb)]
    ∧ ((traverseDFS mDiamond "e" va (fun _ _ => true) 10).getD []).countP (fun pr => pr.2 == vb) = 2
    ∧ traverseBFS mDiamond "e" va (fun _ _ => true) 10
      = some [(va, [vb, vc]), (vb, []), (vc, [vb])]
    ∧ ((traverseBFS mDiamond "e" va (fun _ _ => true) 10).getD []).countP (fun pr => pr.1 == vb) = 1 := by
  refine ⟨by decide, by decide, by decide, by decide⟩

/-- C6 witness: the theorem applied to the concrete graph `mDiamond`: the
first invocation is `(emptyVertex, a)` and the next one after it takes the
LAST unseen child of `a` (`c`, declared after `b`). -/
theorem dfs_first_and_last_child_first_witness :
    ([(emptyVertex, va), (va, vc), (vc, vb), (va, vb)] : List (Vertex × Vertex)).head?
        = some (emptyVertex, va)
    ∧ ([(emptyVertex, va), (va, vc), (vc, vb), (va, vb)] : List (Vertex × Vertex)).tail.head?
        = ((Get mDiamond "e" va).filter (fun c => !([va] : List Vertex).contains c)).getLast?.map
            (fun c => (va, c)) :=
  dfs_first_and_last_child_first.2 mDiamond "e" (fun _ _ => true) 10 ⟨[]⟩ [] emptyVertex va
    [(emptyVertex, va), (va, vc), (vc, vb), (va, vb)] (by decide) rfl (by decide)

/-! ## C10: termination of both traversal loops

DFS termination measure: give every stack entry `(p, v)` the weight
`B ^ |(U \ visited) \ {v}|` where `U` contains every vertex that occurs in a
children list and `B` exceeds the length of every children list by at least
two.  One loop iteration removes the top entry (weight `B ^ k`) and pushes at
most `B - 2` entries of weight `B ^ (k - 1)` each, while the weights of the
remaining entries cannot grow, so the total strictly decreases.  BFS uses
`2·|U \ visited| + |queue|`: every enqueued child is fresh and marked. -/

theorem sdiff_toFinset_cons (U : Finset Vertex) (v : Vertex) (vis : List Vertex) :
    U \ (v :: vis).toFinset = (U \ vis.toFinset).erase v := by
  ext x
  simp only [Finset.mem_sdiff, Finset.mem_erase, List.mem_toFinset, List.mem_cons]
  tauto

theorem get_mem_childUniverse {a : inMemoryAdjacentMatrix} {e : String} {v c : Vertex}
    (h : c ∈ Get a e v) : c ∈ childUniverse a := by
  rw [get_eq] at h
  cases hm : lookupA e a.m with
  | none => rw [hm] at h; simp [lookupA] at h
  | some matrix =>
    rw [hm] at h
    simp only [Option.getD_some] at h
    cases hv : lookupA v matrix with
    | none => rw [hv] at h; simp at h
    | some val =>
      rw [hv] at h
      simp only [Option.getD_some] at h
      have h1 := mem_of_lookupA hv
      have h2 := mem_of_lookupA hm
      unfold childUniverse
      rw [List.mem_flatMap]
      refine ⟨(e, matrix), h2, ?_⟩
      rw [List.mem_flatMap]
      exact ⟨(v, val), h1, h⟩

theorem get_length_le_totalChildren (a : inMemoryAdjacentMatrix) (e : String) (v : Vertex) :
    (Get a e v).length ≤ totalChildren a := by
  rw [get_eq]
  cases hm : lookupA e a.m with
  | none => simp [lookupA]
  | some matrix =>
    simp only [Option.getD_some]
    cases hv : lookupA v matrix with
    | none => simp
    | some val =>
      simp only [Option.getD_some]
      have h1 := mem_of_lookupA hv
      have h2 := mem_of_lookupA hm
      have hle1 : val.length ≤ (matrix.map (fun pv => pv.2.length)).sum := by
        refine List.single_le_sum (fun b _ => Nat.zero_le b) _ ?_
        exact List.mem_map.2 ⟨(v, val), h1, rfl⟩
      have hle2 : (matrix.map (fun pv => pv.2.length)).sum ≤ totalChildren a := by
        unfold totalChildren
        refine List.single_le_sum (fun b _ => Nat.zero_le b) _ ?_
        exact List.mem_map.2 ⟨(e, matrix), h2, rfl⟩
      omega

theorem dfsMeasure_decreases
    (a : inMemoryAdjacentMatrix) (e : String) (U : Finset Vertex)
    (hU : ∀ v c, c ∈ Get a e v → c ∈ U)
    {stack stack' : vertexPairStack} (visited : List Vertex) {p v : Vertex}
    (hpop : stack.Pop = some (p, v, stack')) :
    dfsMeasure U (totalChildren a + 2)
      ⟨stack'.s ++ ((Get a e v).filter (fun c => !(v :: visited).contains c)).map (fun c => ⟨v, c⟩)⟩
      (v :: visited)
      < dfsMeasure U (totalChildren a + 2) stack visited := by
  have hold : dfsMeasure U (totalChildren a + 2) stack visited
      = (stack'.s.map (dfsWeight U (totalChildren a + 2) visited)).sum
        + (totalChildren a + 2) ^ ((U \ visited.toFinset).erase v).card := by
    unfold dfsMeasure
    rw [pop_decomp hpop, List.map_append, List.sum_append]
    simp [dfsWeight]
  have hnew : dfsMeasure U (totalChildren a + 2)
      ⟨stack'.s ++ ((Get a e v).filter (fun c => !(v :: visited).contains c)).map (fun c => ⟨v, c⟩)⟩
      (v :: visited)
      = (stack'.s.map (dfsWeight U (totalChildren a + 2) (v :: visited))).sum
        + ((((Get a e v).filter (fun c => !(v :: visited).contains c)).map (fun c => (⟨v, c⟩ : vertexPair))).map
            (dfsWeight U (totalChildren a + 2) (v :: visited))).sum := by
    unfold dfsMeasure
    rw [List.map_append, List.sum_append]
  have hmono : (stack'.s.map (dfsWeight U (totalChildren a + 2) (v :: visited))).sum
      ≤ (stack'.s.map (dfsWeight U (totalChildren a + 2) visited)).sum := by
    refine List.sum_le_sum ?_
    intro pr _
    unfold dfsWeight
    rw [sdiff_toFinset_cons]
    refine Nat.pow_le_pow_right (by omega) ?_
    refine Finset.card_le_card (Finset.erase_subset_erase _ (Finset.erase_subset _ _))
  have hpush_each : ∀ c ∈ (Get a e v).filter (fun c => !(v :: visited).contains c),
      dfsWeight U (totalChildren a + 2) (v :: visited) ⟨v, c⟩
        = (totalChildren a + 2) ^ (((U \ visited.toFinset).erase v).card - 1)
      ∧ 1 ≤ ((U \ visited.toFinset).erase v).card := by
    intro c hc
    have hcget : c ∈ Get a e v := List.mem_of_mem_filter hc
    have hcU : c ∈ U := hU v c hcget
    have hcnot : c ∉ (v :: visited) := by
      have := List.of_mem_filter hc
      simpa using this
    have hcA' : c ∈ (U \ visited.toFinset).erase v := by
      rw [← sdiff_toFinset_cons]
      rw [Finset.mem_sdiff, List.mem_toFinset]
      exact ⟨hcU, hcnot⟩
    refine ⟨?_, Finset.card_pos.2 ⟨c, hcA'⟩⟩
    unfold dfsWeight
    rw [sdiff_toFinset_cons, Finset.card_erase_of_mem hcA']
  have hpush_sum : ((((Get a e v).filter (fun c => !(v :: visited).contains c)).map
        (fun c => (⟨v, c⟩ : vertexPair))).map
        (dfsWeight U (totalChildren a + 2) (v :: visited))).sum
      < (totalChildren a + 2) ^ ((U \ visited.toFinset).erase v).card := by
    by_cases hnil : (Get a e v).filter (fun c => !(v :: visited).contains c) = []
    · rw [hnil]
      simp only [List.map_nil, List.sum_nil]
      exact Nat.pos_pow_of_pos _ (by omega)
    · obtain ⟨c0, cs0, hcons⟩ := List.exists_cons_of_ne_nil hnil
      have hk1 : 1 ≤ ((U \ visited.toFinset).erase v).card :=
        (hpush_each c0 (by rw [hcons]; exact List.mem_cons_self _ _)).2
      have hbound : ((((Get a e v).filter (fun c => !(v :: visited).contains c)).map
            (fun c => (⟨v, c⟩ : vertexPair))).map
            (dfsWeight U (totalChildren a + 2) (v :: visited))).sum
          ≤ ((Get a e v).filter (fun c => !(v :: visited).contains c)).length
              * (totalChildren a + 2) ^ (((U \ visited.toFinset).erase v).card - 1) := by
        have := List.sum_le_card_nsmul
          ((((Get a e v).filter (fun c => !(v :: visited).contains c)).map
            (fun c => (⟨v, c⟩ : vertexPair))).map
            (dfsWeight U (totalChildren a + 2) (v :: visited)))
          ((totalChildren a + 2) ^ (((U \ visited.toFinset).erase v).card - 1))
          ?_
        · simpa [smul_eq_mul] using this
        · intro x hx
          rw [List.mem_map] at hx
          obtain ⟨pr, hpr, hxw⟩ := hx
          rw [List.mem_map] at hpr
          obtain ⟨c, hc, hpc⟩ := hpr
          subst hpc
          subst hxw
          exact le_of_eq (hpush_each c hc).1
      have hlen : ((Get a e v).filter (fun c => !(v :: visited).contains c)).length
          ≤ totalChildren a :=
        le_trans (List.length_filter_le _ _) (get_length_le_totalChildren a e v)
      have hpow_pos : 0 < (totalChildren a + 2) ^ (((U \ visited.toFinset).erase v).card - 1) :=
        Nat.pos_pow_of_pos _ (by omega)
      have hsplit : (totalChildren a + 2) ^ ((U \ visited.toFinset).erase v).card
          = (totalChildren a + 2) ^ (((U \ visited.toFinset).erase v).card - 1)
            * (totalChildren a + 2) := by
        rw [← pow_succ]
        congr 1
        omega
      have hlt : ((Get a e v).filter (fun c => !(v :: visited).contains c)).length
            * (totalChildren a + 2) ^ (((U \ visited.toFinset).erase v).card - 1)
          < (totalChildren a + 2) ^ ((U \ visited.toFinset).erase v).card := by
        rw [hsplit]
        have h2 : ((Get a e v).filter (fun c => !(v :: visited).contains c)).length
            < totalChildren a + 2 := by omega
        calc ((Get a e v).filter (fun c => !(v :: visited).contains c)).length
              * (totalChildren a + 2) ^ (((U \ visited.toFinset).erase v).card - 1)
            ≤ (totalChildren a + 2) ^ (((U \ visited.toFinset).erase v).card - 1)
              * ((Get a e v).filter (fun c => !(v :: visited).contains c)).length := by
              rw [Nat.mul_comm]
          _ < (totalChildren a + 2) ^ (((U \ visited.toFinset).erase v).card - 1)
              * (totalChildren a + 2) := by
              exact mul_lt_mul_of_pos_left h2 hpow_pos
      omega
  omega

theorem dfsRun_halts (a : inMemoryAdjacentMatrix) (e : String) (fn : Vertex → Vertex → Bool)
    (U : Finset Vertex) (hU : ∀ v c, c ∈ Get a e v → c ∈ U) :
    ∀ (n : Nat) (stack : vertexPairStack) (visited : List Vertex),
      dfsMeasure U (totalChildren a + 2) stack visited < n →
      (dfsRun a e fn n stack visited).isSome := by
  intro n
  induction n with
  | zero => intro stack visited h; exact absurd h (Nat.not_lt_zero _)
  | succ n ih =>
    intro stack visited hm
    cases hpop : stack.Pop with
    | none => simp [dfsRun_succ, hpop]
    | some pvs =>
      obtain ⟨p, v, stack'⟩ := pvs
      simp only [dfsRun_succ, hpop]
      by_cases hfn : fn p v
      · rw [if_pos hfn, foldl_push]
        have hdec := dfsMeasure_decreases a e U hU visited hpop
        have hm' : dfsMeasure U (totalChildren a + 2)
            ⟨stack'.s ++ ((Get a e v).filter (fun c => !(v :: visited).contains c)).map
              (fun c => ⟨v, c⟩)⟩ (v :: visited) < n := by omega
        have hrec := ih _ _ hm'
        cases hr : dfsRun a e fn n
            ⟨stack'.s ++ ((Get a e v).filter (fun c => !(v :: visited).contains c)).map
              (fun c => ⟨v, c⟩)⟩ (v :: visited) with
        | none => rw [hr] at hrec; simp at hrec
        | some tr => simp [hr]
      · rw [if_neg hfn]
        simp

theorem bfsRun_succ (a : inMemoryAdjacentMatrix) (e : String) (fn : Vertex → List Vertex → Bool)
    (n : Nat) (queue visited : List Vertex) :
    bfsRun a e fn (n + 1) queue visited =
      match queue with
      | [] => some []
      | qv :: rest =>
        if fn qv (Get a e qv) then
          match bfsRun a e fn n (bfsAbsorb visited rest (Get a e qv)).2
              (bfsAbsorb visited rest (Get a e qv)).1 with
          | none => none
          | some tr => some ((qv, Get a e qv) :: tr)
        else
          some [(qv, Get a e qv)] := rfl

theorem bfsAbsorb_measure (U : Finset Vertex) :
    ∀ (cs visited queue : List Vertex), (∀ c ∈ cs, c ∈ U) →
      bfsMeasure U (bfsAbsorb visited queue cs).2 (bfsAbsorb visited queue cs).1
        ≤ bfsMeasure U queue visited := by
  intro cs
  induction cs with
  | nil => intro visited queue _; exact le_refl _
  | cons c rest ih =>
    intro visited queue hc
    unfold bfsAbsorb
    by_cases hmem : visited.contains c
    · rw [if_pos hmem]
      exact ih _ _ (fun c' hc' => hc c' (List.mem_cons_of_mem _ hc'))
    · rw [if_neg hmem]
      refine le_trans (ih _ _ (fun c' hc' => hc c' (List.mem_cons_of_mem _ hc'))) ?_
      unfold bfsMeasure
      rw [sdiff_toFinset_cons]
      have hcv : c ∈ U \ visited.toFinset := by
        rw [Finset.mem_sdiff, List.mem_toFinset]
        refine ⟨hc c (List.mem_cons_self _ _), ?_⟩
        simpa using hmem
      rw [Finset.card_erase_of_mem hcv]
      have hpos : 1 ≤ (U \ visited.toFinset).card := Finset.card_pos.2 ⟨c, hcv⟩
      simp only [List.length_append, List.length_cons, List.length_nil]
      omega

theorem bfsRun_halts (a : inMemoryAdjacentMatrix) (e : String) (fn : Vertex → List Vertex → Bool)
    (U : Finset Vertex) (hU : ∀ v c, c ∈ Get a e v → c ∈ U) :
    ∀ (n : Nat) (queue visited : List Vertex),
      bfsMeasure U queue visited < n → (bfsRun a e fn n queue visited).isSome := by
  intro n
  induction n with
  | zero => intro queue visited h; exact absurd h (Nat.not_lt_zero _)
  | succ n ih =>
    intro queue visited hm
    cases queue with
    | nil => simp [bfsRun_succ]
    | cons qv rest =>
      simp only [bfsRun_succ]
      by_cases hfn : fn qv (Get a e qv)
      · rw [if_pos hfn]
        have habs := bfsAbsorb_measure U (Get a e qv) visited rest (fun c hc => hU qv c hc)
        have hlt : bfsMeasure U rest visited + 1 = bfsMeasure U (qv :: rest) visited := by
          unfold bfsMeasure
          simp only [List.length_cons]
          omega
        have hm' : bfsMeasure U (bfsAbsorb visited rest (Get a e qv)).2
            (bfsAbsorb visited rest (Get a e qv)).1 < n := by omega
        have hrec := ih _ _ hm'
        cases hr : bfsRun a e fn n (bfsAbsorb visited rest (Get a e qv)).2
            (bfsAbsorb visited rest (Get a e qv)).1 with
        | none => rw [hr] at hrec; simp at hrec
        | some tr => simp [hr]
      · rw [if_neg hfn]
        simp

/-- C10: with any adjacency matrix, edge relation, start vertex and visitor,
both traversal loops perform finitely many iterations: some finite fuel makes
each run return instead of running out. -/
theorem traversals_terminate (a : inMemoryAdjacentMatrix) (edgeName : String) (s : Vertex)
    (fnB : Vertex → List Vertex → Bool) (fnD : Vertex → Vertex → Bool) :
    (∃ n, (traverseBFS a edgeName s fnB n).isSome)
    ∧ (∃ n, (traverseDFS a edgeName s fnD n).isSome) := by
  constructor
  · refine ⟨bfsMeasure (childUniverse a).toFinset [s] [s] + 1, ?_⟩
    exact bfsRun_halts a edgeName fnB (childUniverse a).toFinset
      (fun v c hc => List.mem_toFinset.2 (get_mem_childUniverse hc)) _ _ _ (Nat.lt_succ_self _)
  · refine ⟨dfsMeasure (childUniverse a).toFinset (totalChildren a + 2)
      (vertexPairStack.Push ⟨[]⟩ emptyVertex s) [] + 1, ?_⟩
    exact dfsRun_halts a edgeName fnD (childUniverse a).toFinset
      (fun v c hc => List.mem_toFinset.2 (get_mem_childUniverse hc)) _ _ _ (Nat.lt_succ_self _)

/-! ## Lemmas about paths -/

theorem strExt {s t : String} (h : s.data = t.data) : s = t := by
  cases s
  cases t
  exact congrArg String.mk h

theorem splitChar_no_sep (sep : Char) : ∀ (cs : List Char), ∀ seg ∈ splitChar sep cs, sep ∉ seg := by
  intro cs
  induction cs with
  | nil =>
    intro seg h
    simp [splitChar] at h
    subst h
    simp
  | cons c rest ih =>
    intro seg h
    unfold splitChar at h
    by_cases hc : c = sep
    · rw [if_pos hc] at h
      rcases List.mem_cons.1 h with h | h
      · subst h; simp
      · exact ih seg h
    · rw [if_neg hc] at h
      cases hs : splitChar sep rest with
      | nil =>
        rw [hs] at h
        simp at h
        subst h
        simp
        exact fun hh => hc hh.symm
      | cons s rest' =>
        rw [hs] at h
        rcases List.mem_cons.1 h with h | h
        · subst h
          intro hmem
          rcases List.mem_cons.1 hmem with hm | hm
          · exact hc hm.symm
          · exact ih s (hs ▸ List.mem_cons_self s rest') hm
        · exact ih seg (hs ▸ List.mem_cons_of_mem s h)

theorem splitChar_cons (sep c : Char) (cs : List Char) :
    splitChar sep (c :: cs)
      = if c = sep then [] :: splitChar sep cs
        else match splitChar sep cs with
          | [] => [[c]]
          | s :: rest => (c :: s) :: rest := rfl

theorem splitChar_cons_self (sep : Char) (cs : List Char) :
    splitChar sep (sep :: cs) = [] :: splitChar sep cs := by
  rw [splitChar_cons, if_pos rfl]

theorem splitChar_of_no_sep (sep : Char) : ∀ (cs : List Char), sep ∉ cs → splitChar sep cs = [cs] := by
  intro cs
  induction cs with
  | nil => intro; rfl
  | cons c rest ih =>
    intro h
    have hc : c ≠ sep := fun hh => h (hh ▸ List.mem_cons_self c rest)
    rw [splitChar_cons, if_neg hc, ih (fun hm => h (List.mem_cons_of_mem _ hm))]

theorem splitChar_append_sep (sep : Char) : ∀ (a xs : List Char), sep ∉ a → a ≠ [] →
    splitChar sep (a ++ sep :: xs) = a :: splitChar sep xs := by
  intro a
  induction a with
  | nil => intro xs _ h; exact absurd rfl h
  | cons c a' ih =>
    intro xs h hne
    have hc : c ≠ sep := fun hh => h (hh ▸ List.mem_cons_self c a')
    by_cases ha' : a' = []
    · subst ha'
      show splitChar sep (c :: sep :: xs) = [c] :: splitChar sep xs
      rw [splitChar_cons, if_neg hc, splitChar_cons_self]
    · have hstep := ih xs (fun hm => h (List.mem_cons_of_mem _ hm)) ha'
      show splitChar sep (c :: (a' ++ sep :: xs)) = (c :: a') :: splitChar sep xs
      rw [splitChar_cons, if_neg hc, hstep]

theorem splitChar_joinSegs : ∀ (css : List (List Char)), (∀ seg ∈ css, '/' ∉ seg ∧ seg ≠ []) →
    (splitChar '/' (joinSegs css)).filter (fun seg => seg ≠ []) = css := by
  intro css
  induction css with
  | nil => intro; rfl
  | cons s css' ih =>
    intro h
    obtain ⟨hs_slash, hs_ne⟩ := h s (List.mem_cons_self _ _)
    cases css' with
    | nil =>
      show (splitChar '/' s).filter (fun seg => seg ≠ []) = [s]
      rw [splitChar_of_no_sep _ _ hs_slash]
      simp [hs_ne]
    | cons s2 css'' =>
      show (splitChar '/' (s ++ '/' :: joinSegs (s2 :: css''))).filter (fun seg => seg ≠ [])
        = s :: s2 :: css''
      rw [splitChar_append_sep _ _ _ hs_slash hs_ne, List.filter_cons,
        if_pos (show (decide (s ≠ []) : Bool) = true by simp [hs_ne]),
        ih (fun seg hseg => h seg (List.mem_cons_of_mem _ hseg))]

theorem splitChar_ne_nil (sep : Char) : ∀ (cs : List Char), splitChar sep cs ≠ [] := by
  intro cs
  cases cs with
  | nil => simp [splitChar]
  | cons c cs' =>
    rw [splitChar_cons]
    by_cases hc : c = sep
    · simp [hc]
    · rw [if_neg hc]
      cases h : splitChar sep cs' with
      | nil => simp
      | cons s rest => simp

theorem splitChar_append_sep_all (sep : Char) : ∀ (a xs : List Char),
    splitChar sep (a ++ sep :: xs) = splitChar sep a ++ splitChar sep xs := by
  intro a
  induction a with
  | nil =>
    intro xs
    show splitChar sep (sep :: xs) = [[]] ++ splitChar sep xs
    rw [splitChar_cons_self]
    rfl
  | cons c a' ih =>
    intro xs
    by_cases hc : c = sep
    · rw [hc]
      show splitChar sep (sep :: (a' ++ sep :: xs)) = splitChar sep (sep :: a') ++ splitChar sep xs
      rw [splitChar_cons_self, splitChar_cons_self, ih]
      rfl
    · show splitChar sep (c :: (a' ++ sep :: xs)) = splitChar sep (c :: a') ++ splitChar sep xs
      rw [splitChar_cons, if_neg hc, ih, splitChar_cons, if_neg hc]
      cases h : splitChar sep a' with
      | nil => exact absurd h (splitChar_ne_nil sep a')
      | cons s rest => simp

theorem splitChar_joinSegs_exact : ∀ (css : List (List Char)), css ≠ [] →
    (∀ seg ∈ css, '/' ∉ seg ∧ seg ≠ []) → splitChar '/' (joinSegs css) = css := by
  intro css
  induction css with
  | nil => intro h _; exact absurd rfl h
  | cons s css' ih =>
    intro _ h
    obtain ⟨hs_slash, hs_ne⟩ := h s (List.mem_cons_self _ _)
    cases css' with
    | nil =>
      show splitChar '/' s = [s]
      exact splitChar_of_no_sep _ _ hs_slash
    | cons s2 css'' =>
      show splitChar '/' (s ++ '/' :: joinSegs (s2 :: css'')) = s :: s2 :: css''
      rw [splitChar_append_sep _ _ _ hs_slash hs_ne,
        ih (by simp) (fun seg hseg => h seg (List.mem_cons_of_mem _ hseg))]

theorem cleanStep_push (rooted : Bool) (out : List (List Char)) {seg : List Char}
    (h1 : seg ≠ []) (h2 : seg ≠ ['.']) (h3 : seg ≠ ['.', '.']) :
    cleanStep rooted out seg = out ++ [seg] := by
  unfold cleanStep
  rw [if_neg (by simp [h1, h2]), if_neg h3]

theorem foldl_cleanStep_clean (rooted : Bool) : ∀ (T : List (List Char)) (acc : List (List Char)),
    (∀ seg ∈ T, seg ≠ [] ∧ seg ≠ ['.'] ∧ seg ≠ ['.', '.']) →
    T.foldl (cleanStep rooted) acc = acc ++ T := by
  intro T
  induction T with
  | nil => intro acc _; simp
  | cons t T' ih =>
    intro acc hT
    obtain ⟨h1, h2, h3⟩ := hT t (List.mem_cons_self _ _)
    rw [List.foldl_cons, cleanStep_push rooted acc h1 h2 h3,
      ih (acc ++ [t]) (fun seg hseg => hT seg (List.mem_cons_of_mem _ hseg))]
    simp

theorem cleanSegs_append_clean (rooted : Bool) (S T : List (List Char))
    (hT : ∀ seg ∈ T, seg ≠ [] ∧ seg ≠ ['.'] ∧ seg ≠ ['.', '.']) :
    cleanSegs rooted (S ++ T) = cleanSegs rooted S ++ T := by
  unfold cleanSegs
  rw [List.foldl_append]
  exact foldl_cleanStep_clean rooted T _ hT

theorem mem_foldl_cleanStep_true : ∀ (segs : List (List Char)) (out : List (List Char))
    (s : List Char), s ∈ segs.foldl (cleanStep true) out →
    s ∈ out ∨ (s ∈ segs ∧ s ≠ [] ∧ s ≠ ['.'] ∧ s ≠ ['.', '.']) := by
  intro segs
  induction segs with
  | nil => intro out s h; exact Or.inl h
  | cons seg rest ih =>
    intro out s h
    rcases ih (cleanStep true out seg) s h with h2 | h2
    · unfold cleanStep at h2
      by_cases c1 : seg = [] ∨ seg = ['.']
      · rw [if_pos c1] at h2
        exact Or.inl h2
      · rw [if_neg c1] at h2
        by_cases c2 : seg = ['.', '.']
        · rw [if_pos c2] at h2
          by_cases c3 : out ≠ [] ∧ out.getLast? ≠ some ['.', '.']
          · rw [if_pos c3] at h2
            exact Or.inl ((List.dropLast_sublist out).subset h2)
          · rw [if_neg c3] at h2
            exact Or.inl (by simpa using h2)
        · rw [if_neg c2] at h2
          rcases List.mem_append.1 h2 with h3 | h3
          · exact Or.inl h3
          · have hs : s = seg := by simpa using h3
            subst hs
            push_neg at c1
            exact Or.inr ⟨List.mem_cons_self _ _, c1.1, c1.2, c2⟩
    · exact Or.inr ⟨List.mem_cons_of_mem _ h2.1, h2.2⟩

theorem mem_rootSegs (root : String) : ∀ seg ∈ rootSegs root,
    ('/' ∉ seg ∧ seg ≠ []) ∧ seg ≠ ['.'] ∧ seg ≠ ['.', '.'] := by
  intro seg h
  rcases mem_foldl_cleanStep_true (splitChar '/' root.data) [] seg h with h2 | h2
  · simp at h2
  · exact ⟨⟨splitChar_no_sep '/' root.data seg h2.1, h2.2.1⟩, h2.2.2⟩

theorem pathClean_rooted (s : String) (hd : s.data.head? = some '/')
    (hout : cleanSegs true (splitChar '/' s.data) ≠ []) :
    pathClean s = ⟨'/' :: joinSegs (cleanSegs true (splitChar '/' s.data))⟩ := by
  have hdne : s.data ≠ [] := by intro hh; rw [hh] at hd; exact Option.noConfusion hd
  have hroot : isRooted s = true := by unfold isRooted; simp [hd]
  unfold pathClean
  rw [hroot, if_neg hdne, if_neg hout]
  simp

theorem cleanStr_segs {comps : List String} (hcomps : ∀ c ∈ comps, cleanStr c) :
    ∀ seg ∈ comps.map String.data, '/' ∉ seg ∧ seg ≠ [] := by
  intro seg hseg
  rw [List.mem_map] at hseg
  obtain ⟨c, hc, hcd⟩ := hseg
  exact ⟨hcd ▸ (hcomps c hc).2.1, hcd ▸ (hcomps c hc).1⟩

theorem cleanStr_segs_dots {comps : List String} (hcomps : ∀ c ∈ comps, cleanStr c) :
    ∀ seg ∈ comps.map String.data, seg ≠ [] ∧ seg ≠ ['.'] ∧ seg ≠ ['.', '.'] := by
  intro seg hseg
  rw [List.mem_map] at hseg
  obtain ⟨c, hc, hcd⟩ := hseg
  exact ⟨hcd ▸ (hcomps c hc).1, hcd ▸ (hcomps c hc).2.2.1, hcd ▸ (hcomps c hc).2.2.2⟩

theorem pathJoin_cons_clean (root : String) (comps : List String)
    (hroot : root.data.head? = some '/') (hne : comps ≠ [])
    (hcomps : ∀ c ∈ comps, cleanStr c) :
    pathJoin (root :: comps) = ⟨'/' :: joinSegs (rootSegs root ++ comps.map String.data)⟩ := by
  have hrne : root.data ≠ [] := by intro hh; rw [hh] at hroot; exact Option.noConfusion hroot
  have hfil : (root :: comps).filter (fun p => decide (p.data ≠ [])) = root :: comps := by
    rw [List.filter_eq_self]
    intro a ha
    rcases List.mem_cons.1 ha with ha | ha
    · subst ha; simp [hrne]
    · simp [(hcomps a ha).1]
  unfold pathJoin
  rw [hfil, if_neg (by simp)]
  cases comps with
  | nil => exact absurd rfl hne
  | cons c0 cs =>
    have hjoin : joinSegs ((root :: c0 :: cs).map String.data)
        = root.data ++ '/' :: joinSegs ((c0 :: cs).map String.data) := rfl
    obtain ⟨r, rs, hr⟩ : ∃ r rs, root.data = r :: rs := by
      cases hcase : root.data with
      | nil => exact absurd hcase hrne
      | cons r rs => exact ⟨r, rs, rfl⟩
    have hrch : r = '/' := by rw [hr] at hroot; simpa using hroot
    have hdhead : (joinSegs ((root :: c0 :: cs).map String.data)).head? = some '/' := by
      rw [hjoin, hr, hrch]
      rfl
    have hsplit : splitChar '/' (joinSegs ((root :: c0 :: cs).map String.data))
        = splitChar '/' root.data ++ (c0 :: cs).map String.data := by
      rw [hjoin, splitChar_append_sep_all]
      congr 1
      exact splitChar_joinSegs_exact _ (by simp) (cleanStr_segs hcomps)
    have hclean : cleanSegs true (splitChar '/' (joinSegs ((root :: c0 :: cs).map String.data)))
        = rootSegs root ++ (c0 :: cs).map String.data := by
      rw [hsplit]
      exact cleanSegs_append_clean true _ _ (cleanStr_segs_dots hcomps)
    rw [show pathClean ⟨joinSegs ((root :: c0 :: cs).map String.data)⟩
        = ⟨'/' :: joinSegs (cleanSegs true (splitChar '/'
            (joinSegs ((root :: c0 :: cs).map String.data))))⟩
      from pathClean_rooted _ hdhead (by rw [hclean]; simp), hclean]

theorem segsOfStr_canon (R : List (List Char)) (hR : ∀ seg ∈ R, '/' ∉ seg ∧ seg ≠ []) :
    segsOfStr ⟨'/' :: joinSegs R⟩ = R := by
  show (splitChar '/' ('/' :: joinSegs R)).filter (fun seg => seg ≠ []) = R
  rw [splitChar_cons_self, List.filter_cons,
    if_neg (show ¬ ((decide (([] : List Char) ≠ [])) = true) by simp)]
  exact splitChar_joinSegs R hR

theorem rootSegs_append_ok (root : String) {comps : List String}
    (hcomps : ∀ c ∈ comps, cleanStr c) :
    ∀ seg ∈ rootSegs root ++ comps.map String.data, '/' ∉ seg ∧ seg ≠ [] := by
  intro seg hseg
  rcases List.mem_append.1 hseg with h | h
  · exact (mem_rootSegs root seg h).1
  · exact cleanStr_segs hcomps seg h

theorem segsOfStr_pathJoin_clean (root : String) (comps : List String)
    (hroot : root.data.head? = some '/') (hne : comps ≠ [])
    (hcomps : ∀ c ∈ comps, cleanStr c) :
    segsOfStr (pathJoin (root :: comps)) = rootSegs root ++ comps.map String.data := by
  rw [pathJoin_cons_clean root comps hroot hne hcomps]
  exact segsOfStr_canon _ (rootSegs_append_ok root hcomps)

theorem segs_single (s : String) (h : cleanStr s) :
    (splitChar '/' s.data).filter (fun seg => seg ≠ []) = [s.data] := by
  rw [splitChar_of_no_sep _ _ h.2.1]
  simp [h.1]

theorem cleanStr_fname (v : String) (h : cleanStr v) : cleanStr (v ++ "." ++ moduleFileExtension) := by
  have hlen : (v ++ "." ++ moduleFileExtension).data.length = v.data.length + 11 := by
    rw [String.data_append, String.data_append, List.length_append, List.length_append,
      show (".".data.length) = 1 from rfl, show moduleFileExtension.data.length = 10 from rfl]
  refine ⟨?_, ?_, ?_, ?_⟩
  · intro hh
    rw [hh] at hlen
    simp only [List.length_nil] at hlen
    omega
  · rw [String.data_append, String.data_append]
    intro hmem
    rcases List.mem_append.1 hmem with hm | hm
    · rcases List.mem_append.1 hm with hm2 | hm2
      · exact h.2.1 hm2
      · revert hm2
        decide
    · revert hm
      decide
  · intro hh
    rw [hh] at hlen
    simp only [List.length_cons, List.length_nil] at hlen
    omega
  · intro hh
    rw [hh] at hlen
    simp only [List.length_cons, List.length_nil] at hlen
    omega

theorem cleanId_comps {t : String × String × String × String} (h : cleanId t) :
    ∀ c ∈ [t.1, t.2.1, t.2.2.1, t.2.2.2 ++ "." ++ moduleFileExtension], cleanStr c := by
  intro c hc
  simp only [List.mem_cons, List.not_mem_nil, or_false] at hc
  rcases hc with rfl | rfl | rfl | rfl
  · exact h.1
  · exact h.2.1
  · exact h.2.2.1
  · exact cleanStr_fname _ h.2.2.2

theorem segsOfStr_idFilePath (root : String) (t : String × String × String × String)
    (hroot : root.data.head? = some '/') (h : cleanId t) :
    segsOfStr (idFilePath root t)
      = rootSegs root
        ++ [t.1.data, t.2.1.data, t.2.2.1.data, (t.2.2.2 ++ "." ++ moduleFileExtension).data] := by
  unfold idFilePath getAbsoluteModuleFilePath
  rw [segsOfStr_pathJoin_clean root [t.1, t.2.1, t.2.2.1, t.2.2.2 ++ "." ++ moduleFileExtension]
    hroot (by simp) (cleanId_comps h)]
  rfl

theorem segsOfStr_nsDir (root ns : String) (hroot : root.data.head? = some '/')
    (h : cleanStr ns) :
    segsOfStr (getAbsoluteModuleNamespaceDirectoryPath root ns) = rootSegs root ++ [ns.data] := by
  unfold getAbsoluteModuleNamespaceDirectoryPath
  rw [segsOfStr_pathJoin_clean root [ns] hroot (by simp) (by
    intro c hc
    simp only [List.mem_cons, List.not_mem_nil, or_false] at hc
    rcases hc with rfl
    exact h)]
  rfl

theorem segsOfStr_nameDir (root ns name : String) (hroot : root.data.head? = some '/')
    (h1 : cleanStr ns) (h2 : cleanStr name) :
    segsOfStr (getAbsoluteModuleNameDirectoryPath root ns name)
      = rootSegs root ++ [ns.data, name.data] := by
  unfold getAbsoluteModuleNameDirectoryPath
  rw [segsOfStr_pathJoin_clean root [ns, name] hroot (by simp) (by
    intro c hc
    simp only [List.mem_cons, List.not_mem_nil, or_false] at hc
    rcases hc with rfl | rfl
    · exact h1
    · exact h2)]
  rfl

theorem segsOfStr_typeDir (root ns name type_ : String) (hroot : root.data.head? = some '/')
    (h1 : cleanStr ns) (h2 : cleanStr name) (h3 : cleanStr type_) :
    segsOfStr (getAbsoluteModuleTypeDirectoryPath root ns name type_)
      = rootSegs root ++ [ns.data, name.data, type_.data] := by
  unfold getAbsoluteModuleTypeDirectoryPath
  rw [segsOfStr_pathJoin_clean root [ns, name, type_] hroot (by simp) (by
    intro c hc
    simp only [List.mem_cons, List.not_mem_nil, or_false] at hc
    rcases hc with rfl | rfl | rfl
    · exact h1
    · exact h2
    · exact h3)]
  rfl

theorem idFilePath_inj (root : String) {t t' : String × String × String × String}
    (hroot : root.data.head? = some '/') (h : cleanId t) (h' : cleanId t')
    (heq : idFilePath root t = idFilePath root t') : t = t' := by
  have h1 := congrArg segsOfStr heq
  rw [segsOfStr_idFilePath root t hroot h, segsOfStr_idFilePath root t' hroot h'] at h1
  have h2 := List.append_cancel_left h1
  simp only [List.cons.injEq, and_true] at h2
  obtain ⟨ha, hb, hc, hf⟩ := h2
  have hfv : t.2.2.2 = t'.2.2.2 := by
    rw [String.data_append, String.data_append, String.data_append, String.data_append] at hf
    have hf1 := List.append_cancel_right hf
    exact strExt (List.append_cancel_right hf1)
  obtain ⟨t1, t2, t3, t4⟩ := t
  obtain ⟨u1, u2, u3, u4⟩ := t'
  simp only at ha hb hc hfv
  simp [strExt ha, strExt hb, strExt hc, hfv]

theorem joinSegs_ne_nil : ∀ (css : List (List Char)) (x : List Char), x ≠ [] →
    joinSegs (css ++ [x]) ≠ [] := by
  intro css x hx
  cases css with
  | nil => simpa [joinSegs] using hx
  | cons a css' =>
    cases hrest : css' ++ [x] with
    | nil => simp at hrest
    | cons r rs =>
      show joinSegs (a :: css' ++ [x]) ≠ []
      simp only [List.cons_append, hrest]
      show a ++ '/' :: joinSegs (r :: rs) ≠ []
      simp

theorem joinSegs_getLast : ∀ (css : List (List Char)) (x : List Char), x ≠ [] →
    (joinSegs (css ++ [x])).getLast? = x.getLast? := by
  intro css
  induction css with
  | nil => intro x _; rfl
  | cons a css' ih =>
    intro x hx
    cases hrest : css' ++ [x] with
    | nil => simp at hrest
    | cons r rs =>
      show (joinSegs (a :: css' ++ [x])).getLast? = x.getLast?
      simp only [List.cons_append, hrest]
      show (a ++ '/' :: joinSegs (r :: rs)).getLast? = x.getLast?
      rw [List.getLast?_append_of_ne_nil _ (by simp)]
      have hJ : joinSegs (r :: rs) ≠ [] := by
        rw [← hrest]
        exact joinSegs_ne_nil css' x hx
      cases hj : joinSegs (r :: rs) with
      | nil => exact absurd hj hJ
      | cons j js =>
        rw [List.getLast?_cons_cons]
        rw [← hj, ← hrest]
        exact ih x hx

theorem idFilePath_canon (root : String) (t : String × String × String × String)
    (hroot : root.data.head? = some '/') (h : cleanId t) :
    idFilePath root t
      = ⟨'/' :: joinSegs (rootSegs root
          ++ [t.1.data, t.2.1.data, t.2.2.1.data,
              (t.2.2.2 ++ "." ++ moduleFileExtension).data])⟩ := by
  unfold idFilePath getAbsoluteModuleFilePath
  rw [pathJoin_cons_clean root [t.1, t.2.1, t.2.2.1, t.2.2.2 ++ "." ++ moduleFileExtension]
    hroot (by simp) (cleanId_comps h)]
  rfl

theorem idFilePath_data_getLast (root : String) (t : String × String × String × String)
    (hroot : root.data.head? = some '/') (h : cleanId t) :
    (idFilePath root t).data.getLast? = some 'n' := by
  rw [idFilePath_canon root t hroot h]
  show ('/' :: joinSegs _).getLast? = some 'n'
  have hfne : ((t.2.2.2 ++ "." ++ moduleFileExtension)).data ≠ [] := (cleanStr_fname _ h.2.2.2).1
  rw [show rootSegs root ++ [t.1.data, t.2.1.data, t.2.2.1.data,
        (t.2.2.2 ++ "." ++ moduleFileExtension).data]
      = (rootSegs root ++ [t.1.data, t.2.1.data, t.2.2.1.data])
        ++ [(t.2.2.2 ++ "." ++ moduleFileExtension).data] by simp]
  have hJne : joinSegs ((rootSegs root ++ [t.1.data, t.2.1.data, t.2.2.1.data])
      ++ [(t.2.2.2 ++ "." ++ moduleFileExtension).data]) ≠ [] :=
    joinSegs_ne_nil _ _ hfne
  cases hj : joinSegs ((rootSegs root ++ [t.1.data, t.2.1.data, t.2.2.1.data])
      ++ [(t.2.2.2 ++ "." ++ moduleFileExtension).data]) with
  | nil => exact absurd hj hJne
  | cons j js =>
    rw [List.getLast?_cons_cons, ← hj, joinSegs_getLast _ _ hfne]
    rw [String.data_append]
    rw [List.getLast?_append_of_ne_nil _ (by decide)]
    decide

theorem lock_data_getLast (s : String) : ((s ++ ".lock").data).getLast? = some 'k' := by
  rw [String.data_append, List.getLast?_append_of_ne_nil _ (by decide)]
  decide

theorem idFilePath_ne_lock (root root' : String) (t t' : String × String × String × String)
    (hroot : root.data.head? = some '/') (h : cleanId t) :
    idFilePath root t ≠ idFilePath root' t' ++ ".lock" := by
  intro heq
  have h1 := congrArg (fun s : String => s.data.getLast?) heq
  simp only at h1
  rw [idFilePath_data_getLast root t hroot h, lock_data_getLast] at h1
  simp at h1

/-! ## Validated identity components are clean path segments -/

theorem utf8_go_eq_zero : ∀ cs : List Char, String.utf8ByteSize.go cs = 0 → cs = [] := by
  intro cs h
  cases cs with
  | nil => rfl
  | cons c cs' =>
    have h2 : String.utf8ByteSize.go cs' + c.utf8Size = 0 := h
    have := Char.utf8Size_pos c
    omega

theorem data_ne_nil_of_min1 {s : String} (h : mustHaveMinMaxLength s 1 63 = none) : s.data ≠ [] := by
  intro hd
  have hsz : s.utf8ByteSize = 0 := by
    cases s with
    | mk d =>
      show String.utf8ByteSize.go d = 0
      rw [show d = [] from hd]
      rfl
  unfold mustHaveMinMaxLength at h
  norm_num at h
  rw [hsz] at h
  exact Option.noConfusion h

theorem no_slash_of_charset {s : String} (hne : s.data ≠ [])
    (h : mustBeLowercaseAlphanumericDashDot s = none) : '/' ∉ s.data := by
  intro hmem
  unfold mustBeLowercaseAlphanumericDashDot at h
  have hsz : ¬ (s.utf8ByteSize = 0) := by
    intro h0
    apply hne
    cases s with
    | mk d => exact utf8_go_eq_zero d h0
  rw [if_neg hsz] at h
  have hmatch : isLowercaseAlphanumericDashDot s = true := by
    by_contra hm
    have hm' : isLowercaseAlphanumericDashDot s = false := by
      cases hb : isLowercaseAlphanumericDashDot s
      · rfl
      · exact absurd hb hm
    rw [hm'] at h
    simp at h
  unfold isLowercaseAlphanumericDashDot at hmatch
  rw [Bool.and_eq_true] at hmatch
  have hall := hmatch.2
  rw [List.all_eq_true] at hall
  have := hall '/' hmem
  simp [isLowerAlnumDashDotChar] at this

theorem mustFulfilConstraints_cons {c : Unit → Option String} {rest : List (Unit → Option String)}
    (h : mustFulfilConstraints (c :: rest) = none) :
    c () = none ∧ mustFulfilConstraints rest = none := by
  unfold mustFulfilConstraints at h
  cases hc : c () with
  | some e => rw [hc] at h; simp at h
  | none => rw [hc] at h; exact ⟨rfl, h⟩

theorem no_dots_of_start {s : String}
    (h : mustStartWithLowercaseAlphabeticCharacter s = none
      ∨ mustStartWithLowercaseAlphanumericCharacter s = none) :
    s.data ≠ ['.'] ∧ s.data ≠ ['.', '.'] := by
  constructor
  · intro hd
    have hs : s = ⟨['.']⟩ := @strExt s ⟨['.']⟩ hd
    subst hs
    rcases h with h | h
    · exact absurd h (by decide)
    · exact absurd h (by decide)
  · intro hd
    have hs : s = ⟨['.', '.']⟩ := @strExt s ⟨['.', '.']⟩ hd
    subst hs
    rcases h with h | h
    · exact absurd h (by decide)
    · exact absurd h (by decide)

theorem cleanStr_of_constraints {s : String} {rest : List (Unit → Option String)}
    (h : mustFulfilConstraints
      ((fun _ => mustHaveMinMaxLength s 1 63)
        :: (fun _ => mustBeLowercaseAlphanumericDashDot s) :: rest) = none)
    (hdots : s.data ≠ ['.'] ∧ s.data ≠ ['.', '.']) : cleanStr s := by
  have h1 := mustFulfilConstraints_cons h
  have h2 := mustFulfilConstraints_cons h1.2
  have hne := data_ne_nil_of_min1 h1.1
  exact ⟨hne, no_slash_of_charset hne h2.1, hdots.1, hdots.2⟩

theorem cleanStr_of_validateModuleNamespace {s : String} (h : validateModuleNamespace s = none) :
    cleanStr s := by
  have h1 := mustFulfilConstraints_cons h
  have h2 := mustFulfilConstraints_cons h1.2
  have h3 := mustFulfilConstraints_cons h2.2
  exact cleanStr_of_constraints h (no_dots_of_start (Or.inl h3.1))

theorem cleanStr_of_validateModuleName {s : String} (h : validateModuleName s = none) :
    cleanStr s := by
  have h1 := mustFulfilConstraints_cons h
  have h2 := mustFulfilConstraints_cons h1.2
  have h3 := mustFulfilConstraints_cons h2.2
  exact cleanStr_of_constraints h (no_dots_of_start (Or.inl h3.1))

theorem cleanStr_of_validateModuleType {s : String} (h : validateModuleType s = none) :
    cleanStr s := by
  have h1 := mustFulfilConstraints_cons h
  have h2 := mustFulfilConstraints_cons h1.2
  have h3 := mustFulfilConstraints_cons h2.2
  exact cleanStr_of_constraints h (no_dots_of_start (Or.inl h3.1))

theorem cleanStr_of_validateModuleVersionName {s : String} (h : validateModuleVersionName s = none) :
    cleanStr s := by
  have h1 := mustFulfilConstraints_cons h
  have h2 := mustFulfilConstraints_cons h1.2
  have h3 := mustFulfilConstraints_cons h2.2
  exact cleanStr_of_constraints h (no_dots_of_start (Or.inr h3.1))

theorem validate_components {m : Module} (h : m.Validate = none) :
    validateModuleNamespace m.Namespace = none
    ∧ validateModuleName m.Name = none
    ∧ validateModuleType m.Type_ = none
    ∧ validateModuleVersionName (versionName m) = none := by
  unfold Module.Validate at h
  cases h1 : validateModuleNamespace m.Namespace with
  | some e => rw [h1] at h; simp at h
  | none =>
    rw [h1] at h
    cases h2 : validateModuleName m.Name with
    | some e => rw [h2] at h; simp at h
    | none =>
      rw [h2] at h
      cases h3 : validateModuleType m.Type_ with
      | some e => rw [h3] at h; simp at h
      | none =>
        rw [h3] at h
        cases h4 : validateModuleVersion m.Version with
        | some e => rw [h4] at h; simp at h
        | none =>
          refine ⟨rfl, rfl, rfl, ?_⟩
          cases hv : m.Version with
          | none =>
            rw [hv] at h4
            exact absurd h4 (by simp [validateModuleVersion])
          | some vb =>
            rw [hv] at h4
            have h4' : vb.Validate = none := h4
            cases h5 : validateModuleVersionName vb.Name with
            | some e =>
              unfold ModuleVersion.Validate at h4'
              rw [h5] at h4'
              simp at h4'
            | none =>
              have hvn : versionName m = vb.Name := by simp [versionName, hv]
              rw [hvn]
              exact h5

theorem cleanId_moduleId {m : Module} (h : m.Validate = none) : cleanId (moduleId m) := by
  obtain ⟨h1, h2, h3, h4⟩ := validate_components h
  exact ⟨cleanStr_of_validateModuleNamespace h1, cleanStr_of_validateModuleName h2,
    cleanStr_of_validateModuleType h3, cleanStr_of_validateModuleVersionName h4⟩

/-! ## C2: `DeleteModuleVersion` does not prune directories -/

/-- C2 at the failing input: after `AddModule` of the record `(a, b, c, v1)`
and `DeleteModuleVersion` of its identity, the record file is gone but the
directories `<ns>/<name>/<type>`, `<ns>/<name>` and `<ns>` all REMAIN (the
claim says they are removed): `cleanup` splits the path on `:` instead of `/`
and its loop bound `i <= 0` allows only one iteration, which stats the empty
string and returns without removing anything. -/
theorem deleteModuleVersion_leaves_directories :
    "/repo/modules/a" ∈ fsAfterDel.dirs
    ∧ "/repo/modules/a/b" ∈ fsAfterDel.dirs
    ∧ "/repo/modules/a/b/c" ∈ fsAfterDel.dirs
    ∧ "/repo/modules" ∈ fsAfterDel.dirs
    ∧ getAbsoluteModuleFilePath fileRoot "a" "b" "c" "v1" ∉ fsAfterDel.files.map Prod.fst := by
  refine ⟨by decide, by decide, by decide, by decide, by decide⟩

/-! ## C8: `GetModule` on identities never added -/

theorem repoStored_chain (r : inMemoryRepository) (t1 t2 t3 t4 : String) :
    repoStored r t1 t2 t3 t4
      = lookupA t4 ((lookupA t3 ((lookupA t2 ((lookupA t1 r.data).getD [])).getD [])).getD []) := by
  unfold repoStored
  cases h1 : lookupA t1 r.data with
  | none => simp [lookupA]
  | some mn =>
    simp only [Option.getD_some]
    cases h2 : lookupA t2 mn with
    | none => simp [lookupA]
    | some mt =>
      simp only [Option.getD_some]
      cases h3 : lookupA t3 mt with
      | none => simp [lookupA]
      | some mv => simp

theorem repoMk_data (d : List (String × List (String × List (String × List (String × Module))))) :
    (⟨d⟩ : inMemoryRepository).data = d := rfl

theorem opAddIds_cons (op : RepoOp) (rest : List RepoOp) :
    opAddIds (op :: rest)
      = (match op with
        | .add m => moduleId m :: opAddIds rest
        | _ => opAddIds rest) := by
  cases op <;> rfl

theorem repoStored_applyAdd_ne (r : inMemoryRepository) (m : Module)
    {t1 t2 t3 t4 : String} (hne : moduleId m ≠ (t1, t2, t3, t4)) :
    repoStored (applyRepoOp r (.add m)) t1 t2 t3 t4 = repoStored r t1 t2 t3 t4 := by
  cases hval : m.Validate with
  | some err => simp only [applyRepoOp, repoAddModule, hval]
  | none =>
    simp only [applyRepoOp, repoAddModule, hval]
    rw [repoStored_chain, repoStored_chain, repoMk_data]
    by_cases h1 : t1 = m.Namespace
    · subst h1
      rw [lookupA_upsert_self]
      simp only [Option.getD_some]
      by_cases h2 : t2 = m.Name
      · subst h2
        rw [lookupA_upsert_self]
        simp only [Option.getD_some]
        by_cases h3 : t3 = m.Type_
        · subst h3
          rw [lookupA_upsert_self]
          simp only [Option.getD_some]
          by_cases h4 : t4 = versionName m
          · exact absurd (show moduleId m = (m.Namespace, m.Name, m.Type_, t4) by rw [h4]; rfl) hne
          · rw [lookupA_upsert_ne _ _ h4]
        · rw [lookupA_upsert_ne _ _ h3]
      · rw [lookupA_upsert_ne _ _ h2]
    · rw [lookupA_upsert_ne _ _ h1]

theorem repoStored_applyDelete_none (r : inMemoryRepository) (op : RepoOp)
    (hop : ∀ m, op ≠ .add m) {t1 t2 t3 t4 : String}
    (h : repoStored r t1 t2 t3 t4 = none) :
    repoStored (applyRepoOp r op) t1 t2 t3 t4 = none := by
  rw [repoStored_chain] at h
  rw [repoStored_chain]
  cases op with
  | add m => exact absurd rfl (hop m)
  | delNamespace ns =>
    simp only [applyRepoOp, repoDeleteNamespace, repoMk_data]
    by_cases h1 : t1 = ns
    · subst h1
      rw [lookupA_delKey_self]
      simp [lookupA]
    · rw [lookupA_delKey_ne _ h1]
      exact h
  | delModule ns name =>
    cases hns : lookupA ns r.data with
    | none => simp only [applyRepoOp, repoDeleteModule, hns]; exact h
    | some mn =>
      simp only [applyRepoOp, repoDeleteModule, hns, repoMk_data]
      by_cases h1 : t1 = ns
      · subst h1
        rw [lookupA_upsert_self]
        simp only [Option.getD_some]
        rw [hns] at h
        simp only [Option.getD_some] at h
        by_cases h2 : t2 = name
        · subst h2
          rw [lookupA_delKey_self]
          simp [lookupA]
        · rw [lookupA_delKey_ne _ h2]
          exact h
      · rw [lookupA_upsert_ne _ _ h1]
        exact h
  | delModuleType ns name type_ =>
    cases hns : lookupA ns r.data with
    | none => simp only [applyRepoOp, repoDeleteModuleType, hns]; exact h
    | some mn =>
      cases hname : lookupA name mn with
      | none => simp only [applyRepoOp, repoDeleteModuleType, hns, hname]; exact h
      | some mt =>
        simp only [applyRepoOp, repoDeleteModuleType, hns, hname, repoMk_data]
        by_cases h1 : t1 = ns
        · subst h1
          rw [lookupA_upsert_self]
          simp only [Option.getD_some]
          rw [hns] at h
          simp only [Option.getD_some] at h
          by_cases h2 : t2 = name
          · subst h2
            rw [lookupA_upsert_self]
            simp only [Option.getD_some]
            rw [hname] at h
            simp only [Option.getD_some] at h
            by_cases h3 : t3 = type_
            · subst h3
              rw [lookupA_delKey_self]
              simp [lookupA]
            · rw [lookupA_delKey_ne _ h3]
              exact h
          · rw [lookupA_upsert_ne _ _ h2]
            exact h
        · rw [lookupA_upsert_ne _ _ h1]
          exact h
  | delModuleVersion ns name type_ version =>
    cases hns : lookupA ns r.data with
    | none => simp only [applyRepoOp, repoDeleteModuleVersion, hns]; exact h
    | some mn =>
      cases hname : lookupA name mn with
      | none => simp only [applyRepoOp, repoDeleteModuleVersion, hns, hname]; exact h
      | some mt =>
        cases htype : lookupA type_ mt with
        | none => simp only [applyRepoOp, repoDeleteModuleVersion, hns, hname, htype]; exact h
        | some mv =>
          simp only [applyRepoOp, repoDeleteModuleVersion, hns, hname, htype, repoMk_data]
          by_cases h1 : t1 = ns
          · subst h1
            rw [lookupA_upsert_self]
            simp only [Option.getD_some]
            rw [hns] at h
            simp only [Option.getD_some] at h
            by_cases h2 : t2 = name
            · subst h2
              rw [lookupA_upsert_self]
              simp only [Option.getD_some]
              rw [hname] at h
              simp only [Option.getD_some] at h
              by_cases h3 : t3 = type_
              · subst h3
                rw [lookupA_upsert_self]
                simp only [Option.getD_some]
                rw [htype] at h
                simp only [Option.getD_some] at h
                by_cases h4 : t4 = version
                · subst h4
                  rw [lookupA_delKey_self]
                · rw [lookupA_delKey_ne _ h4]
                  exact h
              · rw [lookupA_upsert_ne _ _ h3]
                exact h
            · rw [lookupA_upsert_ne _ _ h2]
              exact h
          · rw [lookupA_upsert_ne _ _ h1]
            exact h

theorem repoStored_foldl_none (ops : List RepoOp) :
    ∀ (r : inMemoryRepository) (t : String × String × String × String),
      repoStored r t.1 t.2.1 t.2.2.1 t.2.2.2 = none →
      (∀ x ∈ opAddIds ops, x ≠ t) →
      repoStored (ops.foldl applyRepoOp r) t.1 t.2.1 t.2.2.1 t.2.2.2 = none := by
  induction ops with
  | nil => intro r t h _; simpa using h
  | cons op rest ih =>
    intro r t h hids
    simp only [List.foldl_cons]
    have hrest : ∀ x ∈ opAddIds rest, x ∈ opAddIds (op :: rest) := by
      intro x hx
      rw [opAddIds_cons]
      cases op with
      | add m => exact List.mem_cons_of_mem _ hx
      | delNamespace ns => exact hx
      | delModule ns name => exact hx
      | delModuleType ns name type_ => exact hx
      | delModuleVersion ns name type_ version => exact hx
    refine ih _ _ ?_ (fun x hx => hids x (hrest x hx))
    cases op with
    | add m =>
      have hm : moduleId m ∈ opAddIds (.add m :: rest) := by
        rw [opAddIds_cons]
        exact List.mem_cons_self _ _
      have hne : moduleId m ≠ t := hids (moduleId m) hm
      obtain ⟨u1, u2, u3, u4⟩ := t
      rw [repoStored_applyAdd_ne r m hne]
      exact h
    | delNamespace ns =>
      exact repoStored_applyDelete_none r _ (fun m => by simp) h
    | delModule ns name =>
      exact repoStored_applyDelete_none r _ (fun m => by simp) h
    | delModuleType ns name type_ =>
      exact repoStored_applyDelete_none r _ (fun m => by simp) h
    | delModuleVersion ns name type_ version =>
      exact repoStored_applyDelete_none r _ (fun m => by simp) h

theorem repoStored_deleteVersion_self (r : inMemoryRepository) (t1 t2 t3 t4 : String) :
    repoStored (repoDeleteModuleVersion r t1 t2 t3 t4) t1 t2 t3 t4 = none := by
  rw [repoStored_chain]
  cases hns : lookupA t1 r.data with
  | none =>
    simp only [repoDeleteModuleVersion, hns]
    simp [lookupA]
  | some mn =>
    cases hname : lookupA t2 mn with
    | none =>
      simp only [repoDeleteModuleVersion, hns, hname]
      simp [lookupA, hname]
    | some mt =>
      cases htype : lookupA t3 mt with
      | none =>
        simp only [repoDeleteModuleVersion, hns, hname, htype]
        simp [lookupA, hname, htype]
      | some mv =>
        simp only [repoDeleteModuleVersion, hns, hname, htype, repoMk_data]
        rw [lookupA_upsert_self]
        simp only [Option.getD_some]
        rw [lookupA_upsert_self]
        simp only [Option.getD_some]
        rw [lookupA_upsert_self]
        simp only [Option.getD_some]
        rw [lookupA_delKey_self]

theorem mem_insertIfAbsent {p q : String} {l : List String} (h : p ∈ insertIfAbsent q l) :
    p = q ∨ p ∈ l := by
  unfold insertIfAbsent at h
  by_cases hc : l.contains q
  · rw [if_pos hc] at h
    exact Or.inr h
  · rw [if_neg hc] at h
    exact List.mem_cons.1 h

theorem fsSub_refl (fs : FS) : fsSub fs fs :=
  ⟨fun _ h => h, fun _ h => h, fun _ h => h⟩

theorem fsSub_trans {fs1 fs2 fs3 : FS} (h1 : fsSub fs1 fs2) (h2 : fsSub fs2 fs3) : fsSub fs1 fs3 :=
  ⟨fun pm h => h2.1 pm (h1.1 pm h), fun p h => h2.2.1 p (h1.2.1 p h), fun p h => h2.2.2 p (h1.2.2 p h)⟩

theorem fsSub_removeFS (fs : FS) (p : String) : fsSub (removeFS fs p) fs :=
  ⟨fun pm h => (List.mem_filter.1 h).1, fun q h => (List.mem_filter.1 h).1,
   fun q h => (List.mem_filter.1 h).1⟩

theorem fsSub_removeAllFS (fs : FS) (p : String) : fsSub (removeAllFS fs p) fs :=
  ⟨fun pm h => (List.mem_filter.1 h).1, fun q h => (List.mem_filter.1 h).1,
   fun q h => (List.mem_filter.1 h).1⟩

theorem cleanup_cases (fs : FS) (path : String) :
    (cleanup fs path).1 = fs ∨ (cleanup fs path).1 = removeFS fs "" := by
  unfold cleanup
  cases splitList path with
  | nil => exact Or.inl rfl
  | cons seg rest =>
    cases rest with
    | nil =>
      by_cases h1 : seg = modulesDirectory
      · simp [h1]
      · by_cases h2 : statFS fs ""
        · by_cases h3 : readDirCount fs "" = 0
          · simp [h1, h2, h3]
          · simp [h1, h2, h3]
        · simp [h1, h2]
    | cons s2 r2 => exact Or.inl rfl

theorem fsSub_cleanup (fs : FS) (path : String) : fsSub (cleanup fs path).1 fs := by
  rcases cleanup_cases fs path with h | h
  · rw [h]
    exact fsSub_refl fs
  · rw [h]
    exact fsSub_removeFS fs ""

theorem fsInv_of_sub {root : String} {ids : List (String × String × String × String)} {fs fs' : FS}
    (hsub : fsSub fs' fs) (h : fsInv root ids fs) : fsInv root ids fs' :=
  ⟨fun pm hpm => h.1 pm (hsub.1 pm hpm), fun p hp => h.2.1 p (hsub.2.1 p hp),
   fun p hp => h.2.2 p (hsub.2.2 p hp)⟩

theorem fsInv_addModule {root : String} {ids : List (String × String × String × String)} {fs : FS}
    {m : Module} (h : fsInv root ids fs) (hm : moduleId m ∈ ids) :
    fsInv root ids (fileAddModule root fs (some m)).1 := by
  cases hval : m.Validate with
  | some err =>
    simp only [fileAddModule, hval]
    exact h
  | none =>
    have hclean := cleanId_moduleId hval
    simp only [fileAddModule, hval]
    refine ⟨?_, ?_, ?_⟩
    · intro pm hpm
      rcases mem_upsert hpm with hq | hq
      · exact ⟨moduleId m, hm, hclean, by rw [hq]; rfl⟩
      · exact h.1 pm hq
    · intro p hp
      rcases mem_insertIfAbsent hp with hq | hq
      · exact ⟨moduleId m, hm, hclean, by rw [hq]; rfl⟩
      · exact h.2.1 p hq
    · intro p hp
      rcases mem_insertIfAbsent hp with hq | hq
      · exact Or.inr ⟨moduleId m, hm, hclean, Or.inr (Or.inr (by rw [hq]; rfl))⟩
      · rcases mem_insertIfAbsent hq with hq2 | hq2
        · exact Or.inr ⟨moduleId m, hm, hclean, Or.inr (Or.inl (by rw [hq2]; rfl))⟩
        · rcases mem_insertIfAbsent hq2 with hq3 | hq3
          · exact Or.inr ⟨moduleId m, hm, hclean, Or.inl (by rw [hq3]; rfl)⟩
          · exact h.2.2 p hq3

theorem fsInv_applyFileOp {root : String} {ids : List (String × String × String × String)} {fs : FS}
    (op : RepoOp) (h : fsInv root ids fs) (hm : ∀ m, op = .add m → moduleId m ∈ ids) :
    fsInv root ids (applyFileOp root fs op) := by
  cases op with
  | add m => exact fsInv_addModule h (hm m rfl)
  | delNamespace ns => exact fsInv_of_sub (fsSub_removeAllFS _ _) h
  | delModule ns name =>
    exact fsInv_of_sub (fsSub_trans (fsSub_cleanup _ _) (fsSub_removeAllFS _ _)) h
  | delModuleType ns name type_ =>
    exact fsInv_of_sub (fsSub_trans (fsSub_cleanup _ _) (fsSub_removeAllFS _ _)) h
  | delModuleVersion ns name type_ version =>
    refine fsInv_of_sub (fsSub_trans (fsSub_cleanup _ _) ?_) h
    by_cases hstat : statFS fs (getAbsoluteModuleFilePath root ns name type_ version)
    · rw [if_pos hstat]
      exact fsSub_removeFS _ _
    · rw [if_neg hstat]
      exact fsSub_refl _

theorem fsInv_applyFileOps (root : String) (ops : List RepoOp) :
    fsInv root (opAddIds ops) (applyFileOps root ops) := by
  suffices h : ∀ (ops' : List RepoOp) (fs : FS) (ids : List (String × String × String × String)),
      fsInv root ids fs → (∀ m, RepoOp.add m ∈ ops' → moduleId m ∈ ids) →
      fsInv root ids (ops'.foldl (applyFileOp root) fs) by
    refine h ops (initFS root) (opAddIds ops) ?_ ?_
    · refine ⟨by simp [initFS], by simp [initFS], ?_⟩
      intro p hp
      simp [initFS] at hp
      exact Or.inl hp
    · intro m hmem
      unfold opAddIds
      rw [List.mem_filterMap]
      exact ⟨.add m, hmem, rfl⟩
  intro ops'
  induction ops' with
  | nil => intro fs ids h _; simpa using h
  | cons op rest ih =>
    intro fs ids h hall
    simp only [List.foldl_cons]
    refine ih _ _ (fsInv_applyFileOp op h ?_) ?_
    · intro m hop
      exact hall m (hop ▸ List.mem_cons_self _ _)
    · intro m hmem
      exact hall m (List.mem_cons_of_mem _ hmem)

theorem segsOfStr_idFilePath_length {root : String} {t : String × String × String × String}
    (hroot : root.data.head? = some '/') (h : cleanId t) :
    (segsOfStr (idFilePath root t)).length = (rootSegs root).length + 4 := by
  rw [segsOfStr_idFilePath root t hroot h]
  simp

theorem idFilePath_ne_root {root : String} {t : String × String × String × String}
    (hroot : root.data.head? = some '/') (h : cleanId t) : idFilePath root t ≠ root := by
  intro heq
  have hcanon := idFilePath_canon root t hroot h
  have hdots : ∀ seg ∈ rootSegs root
      ++ [t.1.data, t.2.1.data, t.2.2.1.data, (t.2.2.2 ++ "." ++ moduleFileExtension).data],
      seg ≠ [] ∧ seg ≠ ['.'] ∧ seg ≠ ['.', '.'] := by
    intro seg hseg
    rcases List.mem_append.1 hseg with hm | hm
    · exact ⟨(mem_rootSegs root seg hm).1.2, (mem_rootSegs root seg hm).2⟩
    · exact cleanStr_segs_dots (cleanId_comps h) seg (by simpa using hm)
  have hok : ∀ seg ∈ rootSegs root
      ++ [t.1.data, t.2.1.data, t.2.2.1.data, (t.2.2.2 ++ "." ++ moduleFileExtension).data],
      '/' ∉ seg ∧ seg ≠ [] := rootSegs_append_ok root (cleanId_comps h)
  have h1 : rootSegs (idFilePath root t)
      = rootSegs root
        ++ [t.1.data, t.2.1.data, t.2.2.1.data, (t.2.2.2 ++ "." ++ moduleFileExtension).data] := by
    rw [hcanon]
    show cleanSegs true (splitChar '/' ('/' :: joinSegs (rootSegs root
        ++ [t.1.data, t.2.1.data, t.2.2.1.data, (t.2.2.2 ++ "." ++ moduleFileExtension).data])))
      = rootSegs root
        ++ [t.1.data, t.2.1.data, t.2.2.1.data, (t.2.2.2 ++ "." ++ moduleFileExtension).data]
    rw [splitChar_cons_self, splitChar_joinSegs_exact _ (by simp) hok]
    rw [show ([] : List Char) :: (rootSegs root
          ++ [t.1.data, t.2.1.data, t.2.2.1.data, (t.2.2.2 ++ "." ++ moduleFileExtension).data])
        = [([] : List Char)] ++ (rootSegs root
          ++ [t.1.data, t.2.1.data, t.2.2.1.data, (t.2.2.2 ++ "." ++ moduleFileExtension).data])
      from rfl]
    rw [cleanSegs_append_clean true [[]] _ hdots]
    rw [show cleanSegs true [([] : List Char)] = [] from by decide]
    simp
  rw [heq] at h1
  have h2 := congrArg List.length h1
  simp only [List.length_append, List.length_cons, List.length_nil] at h2
  omega

theorem idFilePath_ne_nsDir {root : String} {t : String × String × String × String} {x : String}
    (hroot : root.data.head? = some '/') (h : cleanId t) (hx : cleanStr x) :
    idFilePath root t ≠ getAbsoluteModuleNamespaceDirectoryPath root x := by
  intro heq
  have h2 := congrArg (fun s : String => (segsOfStr s).length) heq
  simp only at h2
  rw [segsOfStr_idFilePath_length hroot h, segsOfStr_nsDir root x hroot hx] at h2
  simp only [List.length_append, List.length_cons, List.length_nil] at h2
  omega

theorem idFilePath_ne_nameDir {root : String} {t : String × String × String × String}
    {x y : String} (hroot : root.data.head? = some '/') (h : cleanId t)
    (hx : cleanStr x) (hy : cleanStr y) :
    idFilePath root t ≠ getAbsoluteModuleNameDirectoryPath root x y := by
  intro heq
  have h2 := congrArg (fun s : String => (segsOfStr s).length) heq
  simp only at h2
  rw [segsOfStr_idFilePath_length hroot h, segsOfStr_nameDir root x y hroot hx hy] at h2
  simp only [List.length_append, List.length_cons, List.length_nil] at h2
  omega

theorem idFilePath_ne_typeDir {root : String} {t : String × String × String × String}
    {x y z : String} (hroot : root.data.head? = some '/') (h : cleanId t)
    (hx : cleanStr x) (hy : cleanStr y) (hz : cleanStr z) :
    idFilePath root t ≠ getAbsoluteModuleTypeDirectoryPath root x y z := by
  intro heq
  have h2 := congrArg (fun s : String => (segsOfStr s).length) heq
  simp only at h2
  rw [segsOfStr_idFilePath_length hroot h, segsOfStr_typeDir root x y z hroot hx hy hz] at h2
  simp only [List.length_append, List.length_cons, List.length_nil] at h2
  omega

theorem statFS_false_of_inv {root : String} {ids : List (String × String × String × String)}
    {fs : FS} {t : String × String × String × String} (hroot : root.data.head? = some '/')
    (hinv : fsInv root ids fs) (hclean : cleanId t) (hnot : ∀ x ∈ ids, x ≠ t) :
    statFS fs (idFilePath root t) = false := by
  have hdirs : idFilePath root t ∉ fs.dirs := by
    intro hmem
    rcases hinv.2.2 _ hmem with hisroot | ⟨x, _, hxclean, hshape⟩
    · exact idFilePath_ne_root hroot hclean hisroot
    · rcases hshape with hs | hs | hs
      · exact idFilePath_ne_nsDir hroot hclean hxclean.1 hs
      · exact idFilePath_ne_nameDir hroot hclean hxclean.1 hxclean.2.1 hs
      · exact idFilePath_ne_typeDir hroot hclean hxclean.1 hxclean.2.1 hxclean.2.2.1 hs
  have hfiles : idFilePath root t ∉ fs.files.map Prod.fst := by
    intro hmem
    rw [List.mem_map] at hmem
    obtain ⟨pm, hpm, hfst⟩ := hmem
    obtain ⟨x, hx, hxclean, hxp⟩ := hinv.1 pm hpm
    exact hnot x hx (idFilePath_inj root hroot hxclean hclean (by rw [← hxp, hfst]))
  have hlocks : idFilePath root t ∉ fs.locks := by
    intro hmem
    obtain ⟨x, _, _, hxp⟩ := hinv.2.1 _ hmem
    exact idFilePath_ne_lock root root t x hroot hclean hxp
  unfold statFS
  simp [hdirs, hfiles, hlocks]

theorem statFS_false_iff (fs : FS) (p : String) :
    statFS fs p = false ↔ p ∉ fs.dirs ∧ p ∉ fs.files.map Prod.fst ∧ p ∉ fs.locks := by
  simp [statFS, and_assoc]

theorem statFS_after_deleteVersion (root : String) (fs : FS) (t1 t2 t3 t4 : String) :
    statFS (fileDeleteModuleVersion root fs t1 t2 t3 t4).1
      (getAbsoluteModuleFilePath root t1 t2 t3 t4) = false := by
  unfold fileDeleteModuleVersion
  have hfp1 : ∀ fs1 : FS,
      (fs1 = if statFS fs (getAbsoluteModuleFilePath root t1 t2 t3 t4) then
        removeFS fs (getAbsoluteModuleFilePath root t1 t2 t3 t4) else fs) →
      getAbsoluteModuleFilePath root t1 t2 t3 t4 ∉ fs1.dirs
      ∧ getAbsoluteModuleFilePath root t1 t2 t3 t4 ∉ fs1.files.map Prod.fst
      ∧ getAbsoluteModuleFilePath root t1 t2 t3 t4 ∉ fs1.locks := by
    intro fs1 hfs1
    by_cases hstat : statFS fs (getAbsoluteModuleFilePath root t1 t2 t3 t4)
    · rw [if_pos hstat] at hfs1
      subst hfs1
      refine ⟨?_, ?_, ?_⟩
      · intro hm
        have := (List.mem_filter.1 hm).2
        simp at this
      · intro hm
        rw [List.mem_map] at hm
        obtain ⟨pm, hpm, he⟩ := hm
        have := (List.mem_filter.1 hpm).2
        rw [he] at this
        simp at this
      · intro hm
        have := (List.mem_filter.1 hm).2
        simp at this
    · rw [if_neg hstat] at hfs1
      subst hfs1
      rw [Bool.not_eq_true, statFS_false_iff] at hstat
      exact hstat
  have hx := hfp1 _ rfl
  have hsub := fsSub_cleanup (if statFS fs (getAbsoluteModuleFilePath root t1 t2 t3 t4) then
      removeFS fs (getAbsoluteModuleFilePath root t1 t2 t3 t4) else fs)
    (getAbsoluteModuleTypeDirectoryPath root t1 t2 t3)
  have hd := fun hm => hx.1 (hsub.2.2 _ hm)
  have hl := fun hm => hx.2.2 (hsub.2.1 _ hm)
  have hf : getAbsoluteModuleFilePath root t1 t2 t3 t4
      ∉ ((cleanup (if statFS fs (getAbsoluteModuleFilePath root t1 t2 t3 t4) then
          removeFS fs (getAbsoluteModuleFilePath root t1 t2 t3 t4) else fs)
        (getAbsoluteModuleTypeDirectoryPath root t1 t2 t3)).1.files.map Prod.fst) := by
    intro hm
    rw [List.mem_map] at hm
    obtain ⟨pm, hpm, he⟩ := hm
    exact hx.2.1 (List.mem_map.2 ⟨pm, hsub.1 pm hpm, he⟩)
  rw [statFS_false_iff]
  exact ⟨hd, hf, hl⟩

/-- C8 (amended): `GetModule` on an identity never added (or whose record was
deleted by `DeleteModuleVersion`) returns the error `not found`:
unconditionally for the in-memory backend; for the file backend — whose
modules-directory root is absolute (`filepath.Abs` in `NewFileRepository`) —
whenever each of the queried identity's four components is nonempty, free of
`/` and not one of the special path elements `.` and `..` (every identity
that passes validation has this shape, since its components must start with a
lowercase alphabetic or alphanumeric character).  Without that restriction
`path.Join`, whose result is cleaned by `path.Clean`, can collapse the
queried components onto the stored path of a DIFFERENT identity or one of its
directories, and `GetModule` then returns that record or a read error instead
of `not found`. -/
theorem getModule_never_added_not_found :
    (∀ (ops : List RepoOp) (t : String × String × String × String),
        (∀ x ∈ opAddIds ops, x ≠ t) →
        repoGetModuleId (applyRepoOps ops) t = .error "not found")
    ∧ (∀ (r : inMemoryRepository) (t : String × String × String × String),
        repoGetModuleId (repoDeleteModuleVersion r t.1 t.2.1 t.2.2.1 t.2.2.2) t = .error "not found")
    ∧ (∀ (root : String) (ops : List RepoOp) (t : String × String × String × String),
        root.data.head? = some '/' →
        cleanId t →
        (∀ x ∈ opAddIds ops, x ≠ t) →
        fileGetModuleId root (applyFileOps root ops) t = .error "not found")
    ∧ (∀ (root : String) (ops : List RepoOp) (t : String × String × String × String),
        root.data.head? = some '/' →
        cleanId t →
        fileGetModuleId root
          (applyFileOps root (ops ++ [RepoOp.delModuleVersion t.1 t.2.1 t.2.2.1 t.2.2.2])) t
          = .error "not found") := by
  refine ⟨?_, ?_, ?_, ?_⟩
  · intro ops t hnot
    have hstored : repoStored (applyRepoOps ops) t.1 t.2.1 t.2.2.1 t.2.2.2 = none :=
      repoStored_foldl_none ops emptyRepository t rfl hnot
    unfold repoGetModuleId repoGetModule
    rw [hstored]
  · intro r t
    unfold repoGetModuleId repoGetModule
    rw [repoStored_deleteVersion_self]
  · intro root ops t hroot hclean hnot
    have hinv := fsInv_applyFileOps root ops
    have hstat : statFS (applyFileOps root ops)
        (getAbsoluteModuleFilePath root t.1 t.2.1 t.2.2.1 t.2.2.2) = false :=
      statFS_false_of_inv hroot hinv hclean hnot
    simp [fileGetModuleId, fileGetModule, hstat]
  · intro root ops t hroot hclean
    have happ : applyFileOps root (ops ++ [RepoOp.delModuleVersion t.1 t.2.1 t.2.2.1 t.2.2.2])
        = (fileDeleteModuleVersion root (applyFileOps root ops) t.1 t.2.1 t.2.2.1 t.2.2.2).1 := by
      unfold applyFileOps
      rw [List.foldl_append]
      rfl
    rw [happ]
    simp [fileGetModuleId, fileGetModule, statFS_after_deleteVersion]

/-- C8 counterexample: only the identity `(a, b, c, v1)` is ever added, yet
`GetModule("", "a/b/c", "", "v1")` on the file backend returns that stored
record instead of `not found` — `path.Join` drops the empty components and
`path.Clean` re-splits `a/b/c`, yielding the stored record's path. -/
theorem fileGetModule_aliasing_counterexample :
    opAddIds [RepoOp.add m0] = [("a", "b", "c", "v1")]
    ∧ fileGetModule fileRoot (applyFileOps fileRoot [RepoOp.add m0]) "" "a/b/c" "" "v1"
        = .ok m0 := by
  exact ⟨by decide, by decide⟩

/-- C8 witness: the amended theorem applied to the one-add history, the
never-added identity `(z, z, z, z)`, and the add-then-delete history of
`(a, b, c, v1)`. -/
theorem getModule_never_added_not_found_witness :
    repoGetModuleId (applyRepoOps [RepoOp.add m0]) ("z", "z", "z", "z") = .error "not found"
    ∧ fileGetModuleId fileRoot (applyFileOps fileRoot [RepoOp.add m0]) ("z", "z", "z", "z")
        = .error "not found"
    ∧ fileGetModuleId fileRoot
        (applyFileOps fileRoot ([RepoOp.add m0] ++ [RepoOp.delModuleVersion "a" "b" "c" "v1"]))
        ("a", "b", "c", "v1") = .error "not found" := by
  refine ⟨?_, ?_, ?_⟩
  · exact getModule_never_added_not_found.1 [RepoOp.add m0] ("z", "z", "z", "z") (by decide)
  · exact getModule_never_added_not_found.2.2.1 fileRoot [RepoOp.add m0] ("z", "z", "z", "z")
      (by decide) (by unfold cleanId cleanStr; decide) (by decide)
  · exact getModule_never_added_not_found.2.2.2 fileRoot [RepoOp.add m0] ("a", "b", "c", "v1")
      (by decide) (by unfold cleanId cleanStr; decide)

end Odep
